import Mathlib

/-!
Verification of the mcptest repository: a transparent process-I/O capture tool
(command-capture.py) and an offline JSON log reformatter (json-log-formatter.py).

The development shallowly embeds the two scripts:

* Text is modelled as `List Char` (Python `str`), byte strings as `List Nat`
  (Python `bytes`, one `Nat` per byte).
* The three relay coroutines (`handle_stdin` / `handle_stdout` / `handle_stderr`)
  are modelled two ways: a pure per-line model (one loop iteration produces the
  transcript record and the forwarded bytes, exactly as the loop body does), and
  a small-step cooperative-scheduling machine for the supervisor (`start`) that
  captures the asyncio semantics relevant to the shutdown ordering: a task only
  resumes at an await point, and a task whose `cancel()` has been issued receives
  `CancelledError` at that await point instead of its value, which both relay
  loops catch and turn into `break`.
* Python `bytes.decode("utf-8", errors)` is modelled by an executable UTF-8
  decoder parameterised over the error mode; `str.encode("utf-8")` by an
  executable encoder.
* The reformatter's regular expression is modelled positionally (the pattern is
  rigid: a fixed-width bracketed timestamp, the literal tag alternative, and a
  greedy nonempty run of non-newline characters).  Python's `json` module
  is modelled with exact integers for numbers (floats are outside the model),
  insertion-ordered association lists for objects, and the exact escaping rules
  of `json.dumps(ensure_ascii=False)`; `json.dumps(indent=2)` is modelled with
  the indentation-aware renderer matching the stdlib layout.
-/

namespace Mcptest

/-- Characters of a string literal, used to write concrete inputs readably. -/
def lchars (s : String) : List Char := s.data

/-- Left curly brace character (spelled via its code point). -/
def lbrace : Char := '\x7b'

/-- Right curly brace character (spelled via its code point). -/
def rbrace : Char := '\x7d'

/-! ## Python `str.rstrip()`

`rstrip()` with no argument removes trailing whitespace.  The model covers the
ASCII whitespace characters Python strips (space, tab, newline, carriage
return, vertical tab, form feed); the additional Unicode space code points that
Python also strips are outside the model, which only affects records whose
payload contains such code points. -/

/-- Whitespace test used by the model of `str.rstrip()`. -/
def pyIsSpace (c : Char) : Bool :=
  c = ' ' || c = '\t' || c = '\n' || c = '\r' || c = '\x0b' || c = '\x0c'

/-- Model of Python `s.rstrip()`: drop the trailing run of whitespace. -/
def pyRstrip (s : List Char) : List Char :=
  (s.reverse.dropWhile pyIsSpace).reverse

/-! ## Python `bytes.decode("utf-8", errors=...)`

A faithful executable UTF-8 decoder.  `DecMode.strict` models
`errors="strict"` (raise `UnicodeDecodeError`, modelled as `.error ()`);
`DecMode.replace` models `errors="replace"` (emit U+FFFD for each maximal
invalid subpart and continue).  The two modes share one code path, so the
strict-mode error arm is literally the arm shown unreachable in replace mode. -/

/-- Error mode of `bytes.decode`, the `errors=` argument. -/
inductive DecMode where
  | strict
  | replace
deriving DecidableEq, Repr

/-- The Unicode replacement character U+FFFD. -/
def replChar : Char := Char.ofNat 0xFFFD

/-- Continuation byte test: `0x80 ≤ b < 0xC0`. -/
def isCont (b : Nat) : Bool := 0x80 ≤ b && b < 0xC0

/-- Invalid-data handling of `bytes.decode`: in strict mode raise (`.error ()`),
in replace mode emit U+FFFD and continue with the result `k` of decoding the
remainder after the maximal invalid subpart. -/
def decFail (mode : DecMode) (k : Except Unit (List Char)) : Except Unit (List Char) :=
  match mode with
  | .strict => .error ()
  | .replace => (replChar :: ·) <$> k

/-- Consume one UTF-8 unit from `b :: rest`: either one scalar value
(`(some c, remainder)`) or one maximal invalid subpart (`(none, remainder)`).
Each arm mirrors the byte-class dispatch of the codec: ASCII, two/three/four
byte sequences with the usual overlong and surrogate exclusions, and invalid
data. -/
def utf8Step (b : Nat) (rest : List Nat) : Option Char × List Nat :=
  if b < 0x80 then
    (some (Char.ofNat b), rest)
  else if b < 0xC2 then
    -- stray continuation byte or overlong two-byte lead (0x80-0xC1)
    (none, rest)
  else if b < 0xE0 then
    match rest with
    | b2 :: rest2 =>
      if isCont b2 then (some (Char.ofNat ((b - 0xC0) * 0x40 + (b2 - 0x80))), rest2)
      else (none, b2 :: rest2)
    | [] => (none, [])
  else if b < 0xF0 then
    match rest with
    | b2 :: rest2 =>
      if (if b = 0xE0 then 0xA0 ≤ b2 && b2 < 0xC0
          else if b = 0xED then 0x80 ≤ b2 && b2 < 0xA0
          else isCont b2) then
        match rest2 with
        | b3 :: rest3 =>
          if isCont b3 then
            (some (Char.ofNat (((b - 0xE0) * 0x40 + (b2 - 0x80)) * 0x40 + (b3 - 0x80))), rest3)
          else (none, b3 :: rest3)
        | [] => (none, [])
      else (none, b2 :: rest2)
    | [] => (none, [])
  else if b < 0xF5 then
    match rest with
    | b2 :: rest2 =>
      if (if b = 0xF0 then 0x90 ≤ b2 && b2 < 0xC0
          else if b = 0xF4 then 0x80 ≤ b2 && b2 < 0x90
          else isCont b2) then
        match rest2 with
        | b3 :: rest3 =>
          if isCont b3 then
            match rest3 with
            | b4 :: rest4 =>
              if isCont b4 then
                (some (Char.ofNat ((((b - 0xF0) * 0x40 + (b2 - 0x80)) * 0x40 + (b3 - 0x80)) * 0x40
                    + (b4 - 0x80))), rest4)
              else (none, b4 :: rest4)
            | [] => (none, [])
          else (none, b3 :: rest3)
        | [] => (none, [])
      else (none, b2 :: rest2)
    | [] => (none, [])
  else
    -- invalid lead byte 0xF5-0xFF
    (none, rest)

/-- One decode step never grows the tail: the remainder is a suffix of `rest`. -/
theorem utf8Step_length (b : Nat) (rest : List Nat) :
    (utf8Step b rest).2.length ≤ rest.length := by
  unfold utf8Step
  repeat' split
  all_goals simp_arith

/-- Decode a UTF-8 byte sequence under the given error mode, one `utf8Step` at a
time.  A valid scalar contributes its character; invalid data is handed to
`decFail`, resuming after the maximal invalid subpart.  `fuel` only bounds the
recursion (each step consumes at least one byte, so `fuel = length` suffices;
`decodeGo_replace_total` shows the exhaustion arm is then unreachable). -/
def pyDecodeGo : Nat → DecMode → List Nat → Except Unit (List Char)
  | _, _, [] => .ok []
  | 0, _, _ :: _ => .error ()
  | fuel + 1, mode, b :: rest =>
    match utf8Step b rest with
    | (some c, rem) => (c :: ·) <$> pyDecodeGo fuel mode rem
    | (none, rem) => decFail mode (pyDecodeGo fuel mode rem)

/-- Model of `bytes.decode("utf-8", errors=mode)`. -/
def pyDecodeUtf8 (mode : DecMode) (bs : List Nat) : Except Unit (List Char) :=
  pyDecodeGo bs.length mode bs

/-- The decode the relays perform for logging:
`line.decode("utf-8", errors="replace")`.  The error arm is unreachable
(theorem `decode_replace_total`); the `[]` default only makes the projection
total. -/
def decodeReplace (bs : List Nat) : List Char :=
  match pyDecodeUtf8 .replace bs with
  | .ok s => s
  | .error _ => []

/-- Replace mode turns every intermediate result into a success. -/
theorem decFail_replace_ok {k : Except Unit (List Char)} {s : List Char} (h : k = .ok s) :
    decFail .replace k = .ok (replChar :: s) := by
  rw [h]; rfl

/-- With enough fuel, replace-mode decoding reaches neither error arm. -/
theorem decodeGo_replace_total :
    ∀ fuel (bs : List Nat), bs.length ≤ fuel → ∃ s, pyDecodeGo fuel .replace bs = .ok s := by
  intro fuel
  induction fuel with
  | zero =>
    intro bs hb
    match bs with
    | [] => exact ⟨[], rfl⟩
  | succ n ih =>
    intro bs hb
    match bs with
    | [] => exact ⟨[], rfl⟩
    | b :: rest =>
      have hr : rest.length ≤ n := by simpa using hb
      have hl := utf8Step_length b rest
      match hstep : utf8Step b rest with
      | (some c, rem) =>
        rw [hstep] at hl
        obtain ⟨s, hs⟩ := ih rem (le_trans hl hr)
        exact ⟨c :: s, by rw [pyDecodeGo, hstep]; simp [hs]⟩
      | (none, rem) =>
        rw [hstep] at hl
        obtain ⟨s, hs⟩ := ih rem (le_trans hl hr)
        exact ⟨replChar :: s, by rw [pyDecodeGo, hstep]; simpa using decFail_replace_ok hs⟩

/-- Replace-mode decoding never reaches the error arm: for every byte sequence
it produces a string. -/
theorem decode_replace_total : ∀ bs : List Nat, ∃ s, pyDecodeUtf8 .replace bs = .ok s :=
  fun bs => decodeGo_replace_total bs.length bs le_rfl

/-! ## Python `str.encode("utf-8")` -/

/-- Encode one scalar value as UTF-8 bytes. -/
def utf8Bytes (n : Nat) : List Nat :=
  if n < 0x80 then [n]
  else if n < 0x800 then [0xC0 + n / 0x40, 0x80 + n % 0x40]
  else if n < 0x10000 then [0xE0 + n / 0x1000, 0x80 + n / 0x40 % 0x40, 0x80 + n % 0x40]
  else [0xF0 + n / 0x40000, 0x80 + n / 0x1000 % 0x40, 0x80 + n / 0x40 % 0x40, 0x80 + n % 0x40]

/-- Model of `s.encode("utf-8")`. -/
def encodeUtf8 (s : List Char) : List Nat :=
  s.flatMap (fun c => utf8Bytes c.toNat)


/-! ## Decimal digits, zero padding

`natChars n` are the characters of Python `str(n)` for a natural number; `fuel`
only bounds the recursion (`fuel = n` suffices since `n / 10` shrinks). -/

/-- Digit test, modelling both the regex `\d` (ASCII reading) and JSON digits. -/
def isDig (c : Char) : Bool := 48 ≤ c.toNat && c.toNat ≤ 57

/-- The character of the decimal digit `n % 10`. -/
def digitChar (n : Nat) : Char := Char.ofNat (48 + n % 10)

/-- Decimal digit characters of `n`, most significant first. -/
def natCharsAux : Nat → Nat → List Char
  | 0, m => [digitChar m]
  | fuel + 1, m =>
    if m < 10 then [digitChar m]
    else natCharsAux fuel (m / 10) ++ [digitChar (m % 10)]

/-- Decimal representation of a natural number, as `str(n)`. -/
def natChars (n : Nat) : List Char := natCharsAux n n

/-- Zero padding to width `w`, as the `%0⟨w⟩d`-style fields of `strftime`. -/
def padZero (w n : Nat) : List Char :=
  List.replicate (w - (natChars n).length) '0' ++ natChars n

/-- A digit character is a digit. -/
theorem isDig_digitChar (n : Nat) : isDig (digitChar n) = true := by
  have h : ∀ k, k < 10 → isDig (Char.ofNat (48 + k)) = true := by decide
  exact h (n % 10) (Nat.mod_lt _ (by omega))

/-- Every character `natCharsAux` emits is a digit. -/
theorem natCharsAux_digits (fuel n : Nat) : ∀ c ∈ natCharsAux fuel n, isDig c = true := by
  induction fuel generalizing n with
  | zero => intro c hc; rw [natCharsAux] at hc; simp at hc; subst hc; exact isDig_digitChar _
  | succ fuel ih =>
    intro c hc
    rw [natCharsAux] at hc
    by_cases h : n < 10
    · simp [h] at hc; subst hc; exact isDig_digitChar _
    · simp [h] at hc
      rcases hc with hc | hc
      · exact ih (n / 10) c hc
      · subst hc; exact isDig_digitChar _

/-- Every character of `natChars n` is a digit. -/
theorem natChars_digits (n : Nat) : ∀ c ∈ natChars n, isDig c = true :=
  natCharsAux_digits n n

/-- Digit-count bound: below `10 ^ w` the representation has at most `w` digits. -/
theorem natCharsAux_length_le (fuel : Nat) :
    ∀ n w, 0 < w → n < 10 ^ w → (natCharsAux fuel n).length ≤ w := by
  induction fuel with
  | zero => intro n w hw _; rw [natCharsAux]; simpa using hw
  | succ fuel ih =>
    intro n w hw hn
    rw [natCharsAux]
    by_cases h : n < 10
    · simpa [h] using hw
    · have hw2 : 2 ≤ w := by
        by_contra hcon
        interval_cases w
        all_goals omega
      have hdiv : n / 10 < 10 ^ (w - 1) := by
        have h10 : 10 ^ w = 10 ^ (w - 1) * 10 := by
          rw [← pow_succ]
          congr 1
          omega
        omega
      have := ih (n / 10) (w - 1) (by omega) hdiv
      simp [h]
      omega

/-- Digit-count bound for `natChars`. -/
theorem natChars_length_le (n w : Nat) (hw : 0 < w) (hn : n < 10 ^ w) :
    (natChars n).length ≤ w :=
  natCharsAux_length_le n n w hw hn

/-- A zero-padded field has exactly the requested width once the number fits. -/
theorem padZero_length (w n : Nat) (h : (natChars n).length ≤ w) :
    (padZero w n).length = w := by
  simp [padZero]
  omega

/-- Every character of a zero-padded field is a digit. -/
theorem padZero_digits (w n : Nat) : ∀ c ∈ padZero w n, isDig c = true := by
  intro c hc
  rw [padZero] at hc
  rcases List.mem_append.mp hc with hc | hc
  · have := List.eq_of_mem_replicate hc
    subst this
    decide
  · exact natChars_digits n c hc

/-! ## Timestamps

`datetime.datetime.now().strftime("%Y-%m-%d %H:%M:%S.%f")[:-3]`: the full
`strftime` rendering with microseconds, with the last three characters sliced
off to leave milliseconds. -/

/-- The components `strftime` reads off a `datetime` value. -/
structure PyTime where
  year : Nat
  month : Nat
  day : Nat
  hour : Nat
  minute : Nat
  second : Nat
  micro : Nat
deriving DecidableEq, Repr

/-- Rendering of `strftime("%Y-%m-%d %H:%M:%S.%f")`. -/
def strftimeFull (t : PyTime) : List Char :=
  padZero 4 t.year ++ '-' :: (padZero 2 t.month ++ '-' :: (padZero 2 t.day ++ ' '
    :: (padZero 2 t.hour ++ ':' :: (padZero 2 t.minute ++ ':' :: (padZero 2 t.second ++ '.'
    :: padZero 6 t.micro)))))

/-- The `[:-3]` slice of the full rendering (drop the last three characters). -/
def logTimestamp (t : PyTime) : List Char :=
  (strftimeFull t).take ((strftimeFull t).length - 3)

/-- Field bounds guaranteed by `datetime`: calendar fields fit their zero-padded
widths and microseconds are below one million. -/
def tsBounds (t : PyTime) : Prop :=
  1000 ≤ t.year ∧ t.year < 10000 ∧ t.month < 100 ∧ t.day < 100 ∧ t.hour < 100 ∧
    t.minute < 100 ∧ t.second < 100 ∧ t.micro < 1000000

instance (t : PyTime) : Decidable (tsBounds t) := by
  unfold tsBounds
  infer_instance

/-! ## Shape of a rendered timestamp -/

/-- Accept exactly `k` digits, then hand the rest to `next`. -/
def digitsThen (k : Nat) (next : List Char → Bool) : List Char → Bool :=
  match k with
  | 0 => next
  | k + 1 => fun s =>
    match s with
    | c :: t => isDig c && digitsThen k next t
    | [] => false

/-- Accept the literal character `c`, then hand the rest to `next`. -/
def litThen (c : Char) (next : List Char → Bool) : List Char → Bool
  | c2 :: t => c2 == c && next t
  | [] => false

/-- Accept the end of the input. -/
def isNilB : List Char → Bool
  | [] => true
  | _ :: _ => false

/-- Shape test for `YYYY-MM-DD HH:MM:SS.mmm`. -/
def tsShapeOk : List Char → Bool :=
  digitsThen 4 (litThen '-' (digitsThen 2 (litThen '-' (digitsThen 2 (litThen ' '
    (digitsThen 2 (litThen ':' (digitsThen 2 (litThen ':' (digitsThen 2 (litThen '.'
    (digitsThen 3 isNilB))))))))))))

/-- A run of exactly `k` digits passes `digitsThen k`. -/
theorem digitsThen_append (next : List Char → Bool) :
    ∀ (ds r : List Char), (∀ c ∈ ds, isDig c = true) →
      digitsThen ds.length next (ds ++ r) = next r := by
  intro ds
  induction ds with
  | nil => intro r _; rfl
  | cons c t ih =>
    intro r hd
    have hc : isDig c = true := hd c (by simp)
    simp only [List.length_cons, List.cons_append, digitsThen, hc, Bool.true_and]
    exact ih r (fun x hx => hd x (by simp [hx]))


/-- Variant of `digitsThen_append` keyed on a length hypothesis. -/
theorem digitsThen_run (k : Nat) (next : List Char → Bool) (ds r : List Char)
    (hk : ds.length = k) (hd : ∀ c ∈ ds, isDig c = true) :
    digitsThen k next (ds ++ r) = next r := by
  subst hk
  exact digitsThen_append next ds r hd

/-- The literal step consumes its character. -/
theorem litThen_cons (c : Char) (next : List Char → Bool) (t : List Char) :
    litThen c next (c :: t) = next t := by
  simp [litThen]

/-- Splitting a take at an append boundary. -/
theorem take_len_add {α : Type} (a b : List α) (k : Nat) :
    (a ++ b).take (a.length + k) = a ++ b.take k := by
  induction a with
  | nil => simp
  | cons c t ih =>
    have : (c :: t).length + k = (t.length + k) + 1 := by simp; omega
    simp only [this, List.cons_append, List.take_succ_cons, ih]


/-- Explicit shape of the sliced timestamp: dropping the last three characters
cuts the six microsecond digits down to the first three (milliseconds). -/
theorem logTimestamp_shape (t : PyTime) (hb : tsBounds t) :
    logTimestamp t
      = padZero 4 t.year ++ '-' :: (padZero 2 t.month ++ '-' :: (padZero 2 t.day ++ ' '
        :: (padZero 2 t.hour ++ ':' :: (padZero 2 t.minute ++ ':' :: (padZero 2 t.second ++ '.'
        :: (padZero 6 t.micro).take 3))))) := by
  obtain ⟨h1, h2, h3, h4, h5, h6, h7, h8⟩ := hb
  have l4 : (padZero 4 t.year).length = 4 :=
    padZero_length _ _ (natChars_length_le _ 4 (by omega) (by omega))
  have lmo : (padZero 2 t.month).length = 2 :=
    padZero_length _ _ (natChars_length_le _ 2 (by omega) (by omega))
  have ld : (padZero 2 t.day).length = 2 :=
    padZero_length _ _ (natChars_length_le _ 2 (by omega) (by omega))
  have lh : (padZero 2 t.hour).length = 2 :=
    padZero_length _ _ (natChars_length_le _ 2 (by omega) (by omega))
  have lmi : (padZero 2 t.minute).length = 2 :=
    padZero_length _ _ (natChars_length_le _ 2 (by omega) (by omega))
  have ls : (padZero 2 t.second).length = 2 :=
    padZero_length _ _ (natChars_length_le _ 2 (by omega) (by omega))
  have lf : (padZero 6 t.micro).length = 6 :=
    padZero_length _ _ (natChars_length_le _ 6 (by omega) (by omega))
  have hfront : strftimeFull t
      = (padZero 4 t.year ++ '-' :: (padZero 2 t.month ++ '-' :: (padZero 2 t.day ++ ' '
        :: (padZero 2 t.hour ++ ':' :: (padZero 2 t.minute ++ ':' :: (padZero 2 t.second
        ++ ['.']))))))
        ++ padZero 6 t.micro := by
    simp [strftimeFull]
  have hflen : ((padZero 4 t.year ++ '-' :: (padZero 2 t.month ++ '-' :: (padZero 2 t.day ++ ' '
        :: (padZero 2 t.hour ++ ':' :: (padZero 2 t.minute ++ ':' :: (padZero 2 t.second
        ++ ['.'])))))) : List Char).length = 20 := by
    simp [l4, lmo, ld, lh, lmi, ls]
  have hlen : (strftimeFull t).length = 26 := by
    rw [hfront, List.length_append, hflen, lf]
  rw [logTimestamp, hlen]
  show (strftimeFull t).take 23 = _
  rw [hfront]
  have h23 : 23 = ((padZero 4 t.year ++ '-' :: (padZero 2 t.month ++ '-' :: (padZero 2 t.day
      ++ ' ' :: (padZero 2 t.hour ++ ':' :: (padZero 2 t.minute ++ ':' :: (padZero 2 t.second
      ++ ['.'])))))) : List Char).length + 3 := by rw [hflen]
  rw [h23, take_len_add]
  simp

/-- A rendered-and-sliced timestamp has the `YYYY-MM-DD HH:MM:SS.mmm` shape. -/
theorem tsShapeOk_logTimestamp (t : PyTime) (hb : tsBounds t) :
    tsShapeOk (logTimestamp t) = true := by
  obtain ⟨h1, h2, h3, h4, h5, h6, h7, h8⟩ := hb
  have l4 : (padZero 4 t.year).length = 4 :=
    padZero_length _ _ (natChars_length_le _ 4 (by omega) (by omega))
  have lmo : (padZero 2 t.month).length = 2 :=
    padZero_length _ _ (natChars_length_le _ 2 (by omega) (by omega))
  have ld : (padZero 2 t.day).length = 2 :=
    padZero_length _ _ (natChars_length_le _ 2 (by omega) (by omega))
  have lh : (padZero 2 t.hour).length = 2 :=
    padZero_length _ _ (natChars_length_le _ 2 (by omega) (by omega))
  have lmi : (padZero 2 t.minute).length = 2 :=
    padZero_length _ _ (natChars_length_le _ 2 (by omega) (by omega))
  have ls : (padZero 2 t.second).length = 2 :=
    padZero_length _ _ (natChars_length_le _ 2 (by omega) (by omega))
  have lf : ((padZero 6 t.micro).take 3).length = 3 := by
    have : (padZero 6 t.micro).length = 6 :=
      padZero_length _ _ (natChars_length_le _ 6 (by omega) (by omega))
    simp [this]
  have df : ∀ c ∈ (padZero 6 t.micro).take 3, isDig c = true :=
    fun c hc => padZero_digits 6 t.micro c (List.mem_of_mem_take hc)
  rw [logTimestamp_shape t ⟨h1, h2, h3, h4, h5, h6, h7, h8⟩, tsShapeOk]
  rw [digitsThen_run _ _ _ _ l4 (padZero_digits 4 t.year), litThen_cons]
  rw [digitsThen_run _ _ _ _ lmo (padZero_digits 2 t.month), litThen_cons]
  rw [digitsThen_run _ _ _ _ ld (padZero_digits 2 t.day), litThen_cons]
  rw [digitsThen_run _ _ _ _ lh (padZero_digits 2 t.hour), litThen_cons]
  rw [digitsThen_run _ _ _ _ lmi (padZero_digits 2 t.minute), litThen_cons]
  rw [digitsThen_run _ _ _ _ ls (padZero_digits 2 t.second), litThen_cons]
  rw [show ((padZero 6 t.micro).take 3)
      = ((padZero 6 t.micro).take 3) ++ ([] : List Char) by simp]
  rw [digitsThen_run _ _ _ _ lf df]
  rfl

/-! ## The relay loop bodies (command-capture.py, `handle_stdin` /
`handle_stdout` / `handle_stderr`)

Each loop iteration with a nonempty `line` performs, in order:
`log_file.write(log_entry)`, `log_file.flush()`, a write of the original raw
bytes to the destination (`process.stdin.write(line)` resp.
`sys.stdout.buffer.write(line)` / `sys.stderr.buffer.write(line)`), and a
flush/drain of that destination.  The pure model below records this event
sequence for the normal path (no cancellation, no I/O error); `clock` supplies
the timestamp taken at each iteration. -/

/-- Direction tag of the stdin relay. -/
def inTag : List Char := lchars ("IN")

/-- Direction tag of the stdout relay. -/
def outTag : List Char := lchars ("OUT")

/-- Direction tag of the stderr relay. -/
def errTag : List Char := lchars ("ERR")

/-- The transcript record for one line:
`f"[⟨timestamp⟩] ⟨TAG⟩: ⟨line.decode('utf-8', errors='replace').rstrip()⟩\n".encode("utf-8")`. -/
def log_entry (t : PyTime) (tag : List Char) (line : List Nat) : List Nat :=
  encodeUtf8 ('[' :: logTimestamp t ++ ']' :: ' ' :: tag ++ ':' :: ' '
    :: pyRstrip (decodeReplace line) ++ ['\n'])

/-- Observable effects of a relay iteration on the transcript file and on the
relay's destination stream. -/
inductive StreamEv where
  | logWrite (bs : List Nat)
  | logFlush
  | destWrite (bs : List Nat)
  | destFlush
  | closeChildStdin
deriving DecidableEq, Repr

/-- Transcript-file events. -/
def isLogEv : StreamEv → Bool
  | .logWrite _ => true
  | .logFlush => true
  | _ => false

/-- Destination-stream write/flush events. -/
def isDestEv : StreamEv → Bool
  | .destWrite _ => true
  | .destFlush => true
  | _ => false

/-- The transcript-file side of an event sequence. -/
def logEvents (evs : List StreamEv) : List StreamEv := evs.filter isLogEv

/-- The destination-stream side of an event sequence. -/
def destEvents (evs : List StreamEv) : List StreamEv := evs.filter isDestEv

/-- One loop iteration on a nonempty `line`: log record, log flush, forward the
original raw bytes, flush/drain the destination. -/
def relayIter (tag : List Char) (t : PyTime) (line : List Nat) : List StreamEv :=
  [.logWrite (log_entry t tag line), .logFlush, .destWrite line, .destFlush]

/-- The relay loop over the successive lines read from the source stream (the
loop exits at the empty read that follows them). -/
def relayLoop (tag : List Char) (clock : Nat → PyTime) (i : Nat) :
    List (List Nat) → List StreamEv
  | [] => []
  | l :: ls => relayIter tag (clock i) l ++ relayLoop tag clock (i + 1) ls

/-- Model of `handle_stdin` on the EOF path: relay every line, and after the
loop breaks close the child's stdin (`process.stdin.close()`). -/
def handle_stdin (clock : Nat → PyTime) (lines : List (List Nat)) : List StreamEv :=
  relayLoop inTag clock 0 lines ++ [.closeChildStdin]

/-- Model of `handle_stdout`: relay every child-stdout line to parent stdout. -/
def handle_stdout (clock : Nat → PyTime) (lines : List (List Nat)) : List StreamEv :=
  relayLoop outTag clock 0 lines

/-- Model of `handle_stderr`: relay every child-stderr line to parent stderr. -/
def handle_stderr (clock : Nat → PyTime) (lines : List (List Nat)) : List StreamEv :=
  relayLoop errTag clock 0 lines

/-- The destination side of a relay run: the original raw bytes of each line,
in order, each followed by a flush. -/
theorem relayLoop_destEvents (tag : List Char) (clock : Nat → PyTime) :
    ∀ (i : Nat) (lines : List (List Nat)),
      destEvents (relayLoop tag clock i lines)
        = lines.flatMap (fun l => [.destWrite l, .destFlush]) := by
  intro i lines
  induction lines generalizing i with
  | nil => rfl
  | cons l ls ih =>
    simp only [relayLoop, destEvents, List.filter_append, List.flatMap_cons]
    rw [show (relayLoop tag clock (i + 1) ls).filter isDestEv
        = destEvents (relayLoop tag clock (i + 1) ls) from rfl, ih (i + 1)]
    rfl

/-- The transcript side of a relay run: exactly one record per line, formatted
and in order, each followed by a flush. -/
theorem relayLoop_logEvents (tag : List Char) (clock : Nat → PyTime) :
    ∀ (i : Nat) (lines : List (List Nat)),
      logEvents (relayLoop tag clock i lines)
        = (List.enumFrom i lines).flatMap
            (fun p => [.logWrite (log_entry (clock p.1) tag p.2), .logFlush]) := by
  intro i lines
  induction lines generalizing i with
  | nil => rfl
  | cons l ls ih =>
    simp only [relayLoop, logEvents, List.filter_append, List.enumFrom_cons, List.flatMap_cons]
    rw [show (relayLoop tag clock (i + 1) ls).filter isLogEv
        = logEvents (relayLoop tag clock (i + 1) ls) from rfl, ih (i + 1)]
    rfl

/-- C3: for every sequence of lines read by a relay, the bytes written to the
relay's destination (child stdin for the stdin relay, parent stdout/stderr for
the output relays) are the original raw bytes of each line, byte-identical and
in the same order, with the destination flushed after each line. -/
theorem relays_forward_raw_bytes (clock : Nat → PyTime) (lines : List (List Nat)) :
    destEvents (handle_stdin clock lines)
        = lines.flatMap (fun l => [.destWrite l, .destFlush])
    ∧ destEvents (handle_stdout clock lines)
        = lines.flatMap (fun l => [.destWrite l, .destFlush])
    ∧ destEvents (handle_stderr clock lines)
        = lines.flatMap (fun l => [.destWrite l, .destFlush]) := by
  refine ⟨?_, ?_, ?_⟩
  · rw [handle_stdin, destEvents, List.filter_append]
    rw [show (relayLoop inTag clock 0 lines).filter isDestEv
        = destEvents (relayLoop inTag clock 0 lines) from rfl]
    rw [relayLoop_destEvents]
    simp [isDestEv]
  · exact relayLoop_destEvents outTag clock 0 lines
  · exact relayLoop_destEvents errTag clock 0 lines

/-- C4: every forwarded line yields exactly one transcript record, in the
format `[⟨YYYY-MM-DD HH:MM:SS.mmm⟩] ⟨TAG⟩: ⟨content⟩` followed by a newline,
with tag `IN` for data sent to the child, `OUT` for child stdout and `ERR` for
child stderr, the log file flushed after each record; and the rendered
timestamp has the claimed digit shape whenever the fields are in range. -/
theorem transcript_record_per_line (clock : Nat → PyTime) (lines : List (List Nat)) :
    logEvents (handle_stdin clock lines)
        = (List.enumFrom 0 lines).flatMap
            (fun p => [.logWrite (encodeUtf8 ('[' :: logTimestamp (clock p.1) ++ ']' :: ' '
                :: inTag ++ ':' :: ' ' :: pyRstrip (decodeReplace p.2) ++ ['\n'])), .logFlush])
    ∧ logEvents (handle_stdout clock lines)
        = (List.enumFrom 0 lines).flatMap
            (fun p => [.logWrite (encodeUtf8 ('[' :: logTimestamp (clock p.1) ++ ']' :: ' '
                :: outTag ++ ':' :: ' ' :: pyRstrip (decodeReplace p.2) ++ ['\n'])), .logFlush])
    ∧ logEvents (handle_stderr clock lines)
        = (List.enumFrom 0 lines).flatMap
            (fun p => [.logWrite (encodeUtf8 ('[' :: logTimestamp (clock p.1) ++ ']' :: ' '
                :: errTag ++ ':' :: ' ' :: pyRstrip (decodeReplace p.2) ++ ['\n'])), .logFlush])
    ∧ (∀ t : PyTime, tsBounds t → tsShapeOk (logTimestamp t) = true) := by
  refine ⟨?_, ?_, ?_, fun t hb => tsShapeOk_logTimestamp t hb⟩
  · rw [handle_stdin, logEvents, List.filter_append]
    rw [show (relayLoop inTag clock 0 lines).filter isLogEv
        = logEvents (relayLoop inTag clock 0 lines) from rfl]
    rw [relayLoop_logEvents]
    simp [log_entry, isLogEv]
  · rw [handle_stdout, relayLoop_logEvents]
    simp [log_entry]
  · rw [handle_stderr, relayLoop_logEvents]
    simp [log_entry]

/-- Witness for C4 at a concrete time: the bounds hypothesis of the timestamp
conjunct holds at 2024-01-01 00:00:00.000000 and yields the digit shape. -/
theorem transcript_record_per_line_witness :
    tsShapeOk (logTimestamp ⟨2024, 1, 1, 0, 0, 0, 0⟩) = true :=
  (transcript_record_per_line (fun _ => ⟨2024, 1, 1, 0, 0, 0, 0⟩) []).2.2.2
    ⟨2024, 1, 1, 0, 0, 0, 0⟩ (by decide)

/-- The relay loop itself only produces record/flush/forward events; it never
closes the child's stdin. -/
theorem closeChildStdin_not_in_relayLoop (tag : List Char) (clock : Nat → PyTime) :
    ∀ (i : Nat) (lines : List (List Nat)),
      StreamEv.closeChildStdin ∉ relayLoop tag clock i lines := by
  intro i lines
  induction lines generalizing i with
  | nil => simp [relayLoop]
  | cons l ls ih =>
    simp only [relayLoop, List.mem_append, relayIter]
    rintro (h | h)
    · simp at h
    · exact ih (i + 1) h

/-- C9: when the stdin relay reads end-of-stream from the parent's stdin, its
loop stops (producing exactly the events of the lines read before EOF) and it
then closes the child's stdin write side — once, and only after the loop. -/
theorem handle_stdin_eof_closes_child_stdin (clock : Nat → PyTime) (lines : List (List Nat)) :
    handle_stdin clock lines = relayLoop inTag clock 0 lines ++ [StreamEv.closeChildStdin]
    ∧ StreamEv.closeChildStdin ∉ relayLoop inTag clock 0 lines
    ∧ (handle_stdin clock lines).count StreamEv.closeChildStdin = 1
    ∧ (handle_stdin clock lines).getLast? = some StreamEv.closeChildStdin := by
  refine ⟨rfl, closeChildStdin_not_in_relayLoop inTag clock 0 lines, ?_, ?_⟩
  · rw [handle_stdin, List.count_append]
    rw [List.count_eq_zero.mpr (closeChildStdin_not_in_relayLoop inTag clock 0 lines)]
    rfl
  · rw [handle_stdin, List.getLast?_append]
    rfl

/-- Trailing whitespace vanishes under `rstrip`: a string of only whitespace
strips to the empty string. -/
theorem pyRstrip_all_space (s : List Char) (h : s.all pyIsSpace = true) :
    pyRstrip s = [] := by
  rw [pyRstrip, List.dropWhile_eq_nil_iff.mpr, List.reverse_nil]
  intro x hx
  exact List.all_eq_true.mp h x (List.mem_reverse.mp hx)

/-- C10: the transcript record's content is the permissively decoded line with
all trailing whitespace stripped, while the forwarded bytes are the raw line
(whitespace intact); a whitespace-only line therefore logs empty content. -/
theorem record_content_is_rstripped_decode (t : PyTime) (tag : List Char) (line : List Nat) :
    relayIter tag t line
      = [.logWrite (encodeUtf8 ('[' :: logTimestamp t ++ ']' :: ' ' :: tag ++ ':' :: ' '
          :: pyRstrip (decodeReplace line) ++ ['\n'])), .logFlush,
         .destWrite line, .destFlush]
    ∧ ((decodeReplace line).all pyIsSpace = true → pyRstrip (decodeReplace line) = []) :=
  ⟨rfl, fun h => pyRstrip_all_space _ h⟩

/-- Witness for C10 at the whitespace-only line `b" \t\r\n"`: the decoded
content is all whitespace and the logged content is empty, even though the raw
bytes are forwarded. -/
theorem record_content_is_rstripped_decode_witness :
    pyRstrip (decodeReplace [0x20, 0x09, 0x0d, 0x0a]) = [] :=
  (record_content_is_rstripped_decode ⟨2024, 1, 1, 0, 0, 0, 0⟩ inTag
    [0x20, 0x09, 0x0d, 0x0a]).2 (by decide)

/-- C8: constructing a transcript record never fails on any byte sequence —
the relays decode with `errors="replace"`, which replaces invalid sequences
instead of raising, so the decode error branch (which strict mode does reach,
witness `b"\xff"`) is unreachable and the record content is always produced. -/
theorem decode_for_logging_never_fails :
    (∀ bs : List Nat, ∃ s, pyDecodeUtf8 .replace bs = .ok s)
    ∧ pyDecodeUtf8 .strict [0xFF] = .error ()
    ∧ decodeReplace [0xFF] = [replChar] :=
  ⟨decode_replace_total, rfl, rfl⟩

/-! ## The supervisor (`MCPCommandCapture.start`) as a cooperative scheduler

`start` opens the transcript file, spawns the child, launches the three relay
tasks, awaits `process.wait()`, then — in one synchronous stretch with no await
point — cancels the three tasks, closes the transcript file and returns
`process.returncode`.

The machine below models the asyncio semantics this relies on:

* relay coroutines only run between await points; a whole loop body (read
  result received, record appended, bytes forwarded) is one atomic step;
* `handle_stdin` has a second await (`process.stdin.drain()`) inside its body,
  so it gets an extra suspension state; `handle_stdout` / `handle_stderr`
  suspend only at their `readline()`;
* after `cancel()` has been issued, a suspended task resumes with
  `CancelledError` at its await point — it never receives its read result —
  and both relay loops catch `CancelledError` and `break`.

States track the transcript-file handle (open, number of `close()` calls), the
cancel flag of the three tasks (set together by `start`), the child status and
the value `start` returns. -/

/-- The three relay tasks. -/
inductive RelayId where
  | rin
  | rout
  | rerr
deriving DecidableEq, Repr

/-- Where a relay coroutine is suspended: at its readline-style await, at the
stdin relay's `drain()` await, or finished (loop broken, coroutine done). -/
inductive TaskSt where
  | atRead
  | atDrain
  | stopped
deriving DecidableEq, Repr

/-- Supervisor-level state of one capture session after `start` has opened the
transcript file, spawned the child and launched the three relay tasks. -/
structure CapState where
  fileOpen : Bool
  closeCalls : Nat
  cancelled : Bool
  rin : TaskSt
  rout : TaskSt
  rerr : TaskSt
  childCode : Option Int
  supDone : Bool
  returned : Option Int
deriving DecidableEq, Repr

/-- The state of one relay task. -/
def CapState.task (s : CapState) : RelayId → TaskSt
  | .rin => s.rin
  | .rout => s.rout
  | .rerr => s.rerr

/-- Update the state of one relay task. -/
def CapState.setTask (s : CapState) : RelayId → TaskSt → CapState
  | .rin, st => { s with rin := st }
  | .rout, st => { s with rout := st }
  | .rerr, st => { s with rerr := st }

/-- Suspension state a relay body returns to after appending a record: the
stdin relay moves to its `drain()` await, the output relays loop straight back
to `readline()`. -/
def afterAppend : RelayId → TaskSt
  | .rin => .atDrain
  | .rout => .atRead
  | .rerr => .atRead

/-- Observable labels of supervisor-level steps: a relay appending one record
to the transcript, the supervisor closing the transcript file, the child
exiting, or an unobservable internal step. -/
inductive CapLabel where
  | appendRec (r : RelayId)
  | closeLog
  | childExit (n : Int)
  | internal
deriving DecidableEq, Repr

/-- One step of the session.  Constructors map to the source as follows:
`child_exit` is the child process terminating (making `process.wait()` ready);
`relay_line` is a relay resuming from its read await with a nonempty line and
running its loop body (append record, flush, forward) — only possible while no
cancel has been issued, since a cancelled task resumes with `CancelledError`
instead; `relay_drain` is the stdin relay resuming from `drain()` and looping;
`relay_stop` is a relay resuming with EOF (empty read) or an I/O error, both of
which `break`; `relay_cancelled` is a resumption after `cancel()`, whose
`CancelledError` is caught and turns into `break` without touching the
transcript; `sup_finish` is the synchronous tail of `start` after
`process.wait()` returns: `cancel()` on all three tasks, `log_file.close()`,
`return process.returncode` — one atomic step because it contains no await. -/
inductive CapStep : CapState → CapLabel → CapState → Prop where
  | child_exit (s : CapState) (n : Int) :
      s.childCode = none →
      CapStep s (.childExit n) { s with childCode := some n }
  | relay_line (s : CapState) (r : RelayId) :
      s.task r = .atRead →
      s.cancelled = false →
      CapStep s (.appendRec r) (s.setTask r (afterAppend r))
  | relay_drain (s : CapState) :
      s.rin = .atDrain →
      s.cancelled = false →
      CapStep s .internal { s with rin := .atRead }
  | relay_stop (s : CapState) (r : RelayId) :
      s.task r = .atRead →
      s.cancelled = false →
      CapStep s .internal (s.setTask r .stopped)
  | relay_cancelled (s : CapState) (r : RelayId) :
      s.task r ≠ .stopped →
      s.cancelled = true →
      CapStep s .internal (s.setTask r .stopped)
  | sup_finish (s : CapState) (n : Int) :
      s.childCode = some n →
      s.supDone = false →
      CapStep s .closeLog
        { s with cancelled := true, fileOpen := false, closeCalls := s.closeCalls + 1,
                 supDone := true, returned := some n }

/-- A labelled run of the session machine. -/
inductive CapTrace : CapState → List CapLabel → CapState → Prop where
  | nil (s : CapState) : CapTrace s [] s
  | cons {s s2 s3 : CapState} {l : CapLabel} {ls : List CapLabel} :
      CapStep s l s2 → CapTrace s2 ls s3 → CapTrace s (l :: ls) s3

/-- The state right after `start` has opened the log file, spawned the child
and created the three relay tasks. -/
def startState : CapState :=
  { fileOpen := true, closeCalls := 0, cancelled := false,
    rin := .atRead, rout := .atRead, rerr := .atRead,
    childCode := none, supDone := false, returned := none }

/-- The supervisor invariant: before `start`'s synchronous shutdown stretch the
file is open, uncancelled and never closed; after it the file is closed exactly
once, cancellation has been issued and the returned value is the child's
status. -/
def CapInv (s : CapState) : Prop :=
  (s.supDone = false → s.fileOpen = true ∧ s.cancelled = false ∧ s.closeCalls = 0
    ∧ s.returned = none)
  ∧ (s.supDone = true → s.fileOpen = false ∧ s.cancelled = true ∧ s.closeCalls = 1
    ∧ s.returned = s.childCode ∧ s.childCode ≠ none)

/-- `setTask` only changes the relay fields. -/
theorem setTask_fields (s : CapState) (r : RelayId) (st : TaskSt) :
    (s.setTask r st).fileOpen = s.fileOpen ∧ (s.setTask r st).closeCalls = s.closeCalls
    ∧ (s.setTask r st).cancelled = s.cancelled ∧ (s.setTask r st).childCode = s.childCode
    ∧ (s.setTask r st).supDone = s.supDone ∧ (s.setTask r st).returned = s.returned := by
  cases r <;> simp [CapState.setTask]

/-- Each step preserves the supervisor invariant. -/
theorem CapStep.inv {s s2 : CapState} {l : CapLabel} (h : CapStep s l s2) (hs : CapInv s) :
    CapInv s2 := by
  obtain ⟨hpre, hpost⟩ := hs
  cases h with
  | child_exit n hc =>
    constructor
    · intro hd
      exact hpre hd
    · intro hd
      obtain ⟨h1, h2, h3, h4, h5⟩ := hpost hd
      exact absurd hc h5
  | relay_line r hr hc =>
    obtain ⟨f1, f2, f3, f4, f5, f6⟩ := setTask_fields s r (afterAppend r)
    constructor
    · intro hd
      rw [f5] at hd
      obtain ⟨h1, h2, h3, h4⟩ := hpre hd
      simp_all
    · intro hd
      rw [f5] at hd
      obtain ⟨h1, h2, h3, h4, h5⟩ := hpost hd
      simp_all
  | relay_drain hr hc =>
    constructor
    · intro hd
      exact hpre hd
    · intro hd
      exact hpost hd
  | relay_stop r hr hc =>
    obtain ⟨f1, f2, f3, f4, f5, f6⟩ := setTask_fields s r .stopped
    constructor
    · intro hd
      rw [f5] at hd
      obtain ⟨h1, h2, h3, h4⟩ := hpre hd
      simp_all
    · intro hd
      rw [f5] at hd
      obtain ⟨h1, h2, h3, h4, h5⟩ := hpost hd
      simp_all
  | relay_cancelled r hr hc =>
    obtain ⟨f1, f2, f3, f4, f5, f6⟩ := setTask_fields s r .stopped
    constructor
    · intro hd
      rw [f5] at hd
      obtain ⟨h1, h2, h3, h4⟩ := hpre hd
      simp_all
    · intro hd
      rw [f5] at hd
      obtain ⟨h1, h2, h3, h4, h5⟩ := hpost hd
      simp_all
  | sup_finish n hc hd =>
    constructor
    · intro hcon
      simp at hcon
    · intro _
      obtain ⟨h1, h2, h3, h4⟩ := hpre hd
      simp_all

/-- Once the supervisor has finished (cancel issued, file closed), the only
step a relay can take is a cancelled resumption: no record is appended and the
file is not closed again. -/
theorem CapStep.after_done {s s2 : CapState} {l : CapLabel} (h : CapStep s l s2)
    (hs : CapInv s) (hd : s.supDone = true) :
    l = .internal ∧ s2.supDone = true ∧ s2.closeCalls = s.closeCalls := by
  obtain ⟨h1, h2, h3, h4, h5⟩ := hs.2 hd
  cases h with
  | child_exit n hc => exact absurd hc h5
  | relay_line r hr hc => rw [hc] at h2; cases h2
  | relay_drain hr hc => rw [hc] at h2; cases h2
  | relay_stop r hr hc => rw [hc] at h2; cases h2
  | relay_cancelled r hr hc =>
    obtain ⟨f1, f2, f3, f4, f5, f6⟩ := setTask_fields s r .stopped
    exact ⟨rfl, by rw [f5]; exact hd, f2⟩
  | sup_finish n hc hdf => rw [hd] at hdf; cases hdf

/-- Close-step classification: a step either is the supervisor's single
close-and-finish step, or leaves the close count and done flag unchanged. -/
theorem CapStep.close_or_not {s s2 : CapState} {l : CapLabel} (h : CapStep s l s2) :
    (l = .closeLog ∧ s.supDone = false ∧ s2.supDone = true
      ∧ s2.closeCalls = s.closeCalls + 1)
    ∨ (l ≠ .closeLog ∧ s2.supDone = s.supDone ∧ s2.closeCalls = s.closeCalls) := by
  cases h with
  | child_exit n hc => exact Or.inr ⟨by simp, rfl, rfl⟩
  | relay_line r hr hc =>
    obtain ⟨f1, f2, f3, f4, f5, f6⟩ := setTask_fields s r (afterAppend r)
    exact Or.inr ⟨by simp, f5, f2⟩
  | relay_drain hr hc => exact Or.inr ⟨by simp, rfl, rfl⟩
  | relay_stop r hr hc =>
    obtain ⟨f1, f2, f3, f4, f5, f6⟩ := setTask_fields s r .stopped
    exact Or.inr ⟨by simp, f5, f2⟩
  | relay_cancelled r hr hc =>
    obtain ⟨f1, f2, f3, f4, f5, f6⟩ := setTask_fields s r .stopped
    exact Or.inr ⟨by simp, f5, f2⟩
  | sup_finish n hc hd => exact Or.inl ⟨rfl, hd, rfl, rfl⟩

/-- Aggregate trace properties, proved by one induction along the trace: the
invariant is carried to the end, the close count of the trace matches the
state, nothing is appended and nothing closed after the supervisor finished,
no append ever follows a close in the trace, and a run that finishes the
supervisor closes exactly once. -/
theorem CapTrace.props {s : CapState} {tr : List CapLabel} {s2 : CapState}
    (h : CapTrace s tr s2) (hs : CapInv s) :
    CapInv s2
    ∧ s2.closeCalls = s.closeCalls + tr.count CapLabel.closeLog
    ∧ (s.supDone = true →
        (∀ r, CapLabel.appendRec r ∉ tr) ∧ tr.count CapLabel.closeLog = 0)
    ∧ (∀ pre suf, tr = pre ++ CapLabel.closeLog :: suf → ∀ r, CapLabel.appendRec r ∉ suf)
    ∧ (s.supDone = false → s2.supDone = true → tr.count CapLabel.closeLog = 1) := by
  induction h with
  | nil s =>
    refine ⟨hs, by simp, fun _ => ⟨by simp, by simp⟩, ?_, fun h1 h2 => by rw [h1] at h2; cases h2⟩
    intro pre suf hsplit
    cases pre <;> simp at hsplit
  | cons hstep htr ih =>
    obtain ⟨ih1, ih2, ih3, ih4, ih5⟩ := ih (hstep.inv hs)
    rename_i sa sb sc l ls
    refine ⟨ih1, ?_, ?_, ?_, ?_⟩
    · rcases hstep.close_or_not with ⟨hl, _, _, hcc⟩ | ⟨hl, _, hcc⟩
      · subst hl
        rw [List.count_cons_self, ih2, hcc]
        omega
      · rw [List.count_cons_of_ne (fun hx => hl hx.symm), ih2, hcc]
    · intro hd
      obtain ⟨hint, hd2, _⟩ := hstep.after_done hs hd
      obtain ⟨hnap, hncl⟩ := ih3 hd2
      subst hint
      constructor
      · intro r
        simp only [List.mem_cons]
        rintro (hc | hc)
        · cases hc
        · exact hnap r hc
      · rw [List.count_cons_of_ne (by simp)]
        exact hncl
    · intro pre suf hsplit r
      cases pre with
      | nil =>
        simp only [List.nil_append, List.cons.injEq] at hsplit
        obtain ⟨hl, hls⟩ := hsplit
        subst hl
        rcases hstep.close_or_not with ⟨_, _, hbdone, _⟩ | ⟨hne, _, _⟩
        · subst hls
          exact (ih3 hbdone).1 r
        · simp at hne
      | cons p pre2 =>
        simp only [List.cons_append, List.cons.injEq] at hsplit
        exact ih4 pre2 suf hsplit.2 r
    · intro hd1 hd2
      rcases hstep.close_or_not with ⟨hl, _, hbdone, _⟩ | ⟨hl, hsame, _⟩
      · subst hl
        rw [List.count_cons_self, (ih3 hbdone).2]
      · rw [List.count_cons_of_ne (fun hx => hl hx.symm)]
        exact ih5 (by rw [← hd1, hsame]) hd2

/-- The initial supervisor state satisfies the invariant. -/
theorem startState_inv : CapInv startState := by
  constructor
  · intro _
    exact ⟨rfl, rfl, rfl, rfl⟩
  · intro h
    cases h

/-- C1: along every run of the session from `start`'s launch point, the
transcript file is closed at most once, no relay appends a record after the
close, and whenever the supervisor has finished the file has been closed
exactly once and is no longer open. -/
theorem log_sink_outlives_relays {tr : List CapLabel} {s : CapState}
    (h : CapTrace startState tr s) :
    tr.count CapLabel.closeLog ≤ 1
    ∧ (∀ pre suf, tr = pre ++ CapLabel.closeLog :: suf → ∀ r, CapLabel.appendRec r ∉ suf)
    ∧ (s.supDone = true →
        tr.count CapLabel.closeLog = 1 ∧ s.closeCalls = 1 ∧ s.fileOpen = false) := by
  obtain ⟨hinv, hcc, _, hnoafter, hdone⟩ := h.props startState_inv
  refine ⟨?_, hnoafter, ?_⟩
  · by_cases hd : s.supDone = true
    · obtain ⟨_, _, h1, _⟩ := hinv.2 hd
      omega
    · obtain ⟨_, _, h1, _⟩ := hinv.1 (by simpa using hd)
      omega
  · intro hd
    obtain ⟨hfo, _, h1, _⟩ := hinv.2 hd
    exact ⟨hdone rfl hd, h1, hfo⟩

/-- Witness for C1: the run 〈child exits 0, the stdout relay appends one more
buffered record, the supervisor cancels + closes〉 closes the log exactly once. -/
theorem log_sink_outlives_relays_witness :
    ([CapLabel.childExit 0, CapLabel.appendRec RelayId.rout,
      CapLabel.closeLog].count CapLabel.closeLog = 1) := by
  exact ((log_sink_outlives_relays
    (CapTrace.cons (CapStep.child_exit _ 0 rfl)
      (CapTrace.cons (CapStep.relay_line _ RelayId.rout rfl rfl)
        (CapTrace.cons (CapStep.sup_finish _ 0 rfl rfl)
          (CapTrace.nil _))))).2.2 rfl).1

/-- The capture process's own exit status: `sys.exit(exit_code)` at the bottom
of the script, truncated to a byte by the operating system. -/
def posixExitStatus (n : Int) : Nat := (n % 256).toNat

/-- C2: if the child exited with code `n`, a finished supervisor returns
exactly `n` from `start` (which `__main__` passes to `sys.exit`), and for exit
codes (0 ≤ n < 256) the capture process's own exit status is again `n`. -/
theorem capture_exit_code_matches_child {tr : List CapLabel} {s : CapState} {n : Int}
    (h : CapTrace startState tr s) (hdone : s.supDone = true)
    (hchild : s.childCode = some n) (h0 : 0 ≤ n) (h256 : n < 256) :
    s.returned = some n ∧ (posixExitStatus n : Int) = n := by
  obtain ⟨hinv, _, _, _, _⟩ := h.props startState_inv
  obtain ⟨_, _, _, hret, _⟩ := hinv.2 hdone
  constructor
  · rw [hret, hchild]
  · rw [posixExitStatus, Int.emod_eq_of_lt h0 h256, Int.toNat_of_nonneg h0]

/-- Witness for C2: a child exiting 7 makes `start` return 7 and the capture
process exit with status 7. -/
theorem capture_exit_code_matches_child_witness : (posixExitStatus 7 : Int) = 7 := by
  exact (capture_exit_code_matches_child
    (CapTrace.cons (CapStep.child_exit _ 7 rfl)
      (CapTrace.cons (CapStep.sup_finish _ 7 rfl rfl) (CapTrace.nil _)))
    rfl rfl (by decide) (by decide)).2

/-! ## The reformatter (json-log-formatter.py)

`format_json_logs` reads the input file in text mode (universal newlines:
`\r\n` and bare `\r` become `\n`), splits it into lines with the newline
kept (`readlines`), maps each line through the regex + `json` transformation,
and writes the concatenation back out (on POSIX the text-mode write is the
identity). -/

/-- Universal-newline translation performed by reading a file in text mode. -/
def univNl : List Char → List Char
  | [] => []
  | c :: t =>
    if c = '\r' then
      match t with
      | '\n' :: t2 => '\n' :: univNl t2
      | [] => ['\n']
      | c2 :: t2 => '\n' :: univNl (c2 :: t2)
    else c :: univNl t

/-- Model of `readlines` on already-translated text: split after each newline,
keeping the newline; a trailing fragment without a newline is its own line. -/
def splitLinesPy : List Char → List (List Char)
  | [] => []
  | c :: t =>
    if c = '\n' then ['\n'] :: splitLinesPy t
    else
      match splitLinesPy t with
      | [] => [[c]]
      | p :: ps => (c :: p) :: ps

/-- The `formatted_json.replace("\n", "\n  ")` step: two extra spaces after
every newline. -/
def replaceNlIndent : List Char → List Char
  | [] => []
  | c :: t =>
    if c = '\n' then '\n' :: ' ' :: ' ' :: replaceNlIndent t
    else c :: replaceNlIndent t

/-- The head of a text as a (possibly empty) list. -/
def headOf : List Char → List Char
  | [] => []
  | c :: _ => [c]

/-- The characters that immediately follow a newline somewhere in the text. -/
def nlFollowedBy : List Char → List Char
  | [] => []
  | c :: t => (if c = '\n' then headOf t else []) ++ nlFollowedBy t

/-- Splitting into kept-newline lines and concatenating is the identity. -/
theorem join_splitLinesPy (x : List Char) : (splitLinesPy x).flatten = x := by
  induction x with
  | nil => rfl
  | cons c t ih =>
    rw [splitLinesPy]
    by_cases hc : c = '\n'
    · simp [hc, ih]
    · simp only [if_neg hc]
      match hsp : splitLinesPy t with
      | [] =>
        rw [hsp] at ih
        simp at ih
        simp [← ih]
      | p :: ps =>
        rw [hsp] at ih
        simp only [List.flatten_cons] at ih ⊢
        simp [ih]

/-- A newline-free segment followed by a newline is split off as one line. -/
theorem splitLinesPy_nlterm (a : List Char) (r : List Char) (ha : '\n' ∉ a) :
    splitLinesPy (a ++ '\n' :: r) = (a ++ ['\n']) :: splitLinesPy r := by
  induction a with
  | nil => simp [splitLinesPy]
  | cons c t ih =>
    have hc : c ≠ '\n' := fun h => ha (h ▸ List.mem_cons_self c t)
    have ht : '\n' ∉ t := fun h => ha (List.mem_cons_of_mem c h)
    rw [List.cons_append, splitLinesPy, if_neg hc, ih ht]
    simp

/-- A nonempty newline-free text is a single line. -/
theorem splitLinesPy_noNl (a : List Char) (ha : '\n' ∉ a) (hne : a ≠ []) :
    splitLinesPy a = [a] := by
  induction a with
  | nil => exact absurd rfl hne
  | cons c t ih =>
    have hc : c ≠ '\n' := fun h => ha (h ▸ List.mem_cons_self c t)
    have ht : '\n' ∉ t := fun h => ha (List.mem_cons_of_mem c h)
    rw [splitLinesPy, if_neg hc]
    match ht2 : t with
    | [] => rfl
    | c2 :: t2 =>
      rw [ih (ht2 ▸ ht) (by simp)]

/-- Splitting a nonempty text yields at least one line. -/
theorem splitLinesPy_ne_nil (x : List Char) (hx : x ≠ []) : splitLinesPy x ≠ [] := by
  match x with
  | c :: t =>
    rw [splitLinesPy]
    by_cases hc : c = '\n'
    · simp [hc]
    · simp only [if_neg hc]
      match splitLinesPy t with
      | [] => simp
      | p :: ps => simp

/-- Splitting distributes over an append at a newline boundary. -/
theorem splitLinesPy_append_endsNl (a r : List Char) :
    splitLinesPy ((a ++ ['\n']) ++ r) = splitLinesPy (a ++ ['\n']) ++ splitLinesPy r := by
  induction a with
  | nil => simp [splitLinesPy]
  | cons c t ih =>
    have e1 : ((c :: t) ++ ['\n']) ++ r = c :: ((t ++ ['\n']) ++ r) := by simp
    have e2 : (c :: t) ++ ['\n'] = c :: (t ++ ['\n']) := by simp
    rw [e1, e2]
    by_cases hc : c = '\n'
    · subst hc
      rw [splitLinesPy, if_pos rfl, ih]
      conv_rhs => rw [splitLinesPy, if_pos rfl]
      simp
    · rw [splitLinesPy, if_neg hc, ih]
      conv_rhs => rw [splitLinesPy, if_neg hc]
      have hne : splitLinesPy (t ++ ['\n']) ≠ [] := splitLinesPy_ne_nil _ (by simp)
      match hsp : splitLinesPy (t ++ ['\n']) with
      | [] => exact absurd hsp hne
      | p :: ps => simp

/-- All lines of a split except possibly the last end with a newline. -/
def ChainNl : List (List Char) → Prop
  | [] => True
  | [_] => True
  | a :: b :: r => (∃ a0, a = a0 ++ ['\n']) ∧ ChainNl (b :: r)

/-- The lines `splitLinesPy` produces satisfy `ChainNl`. -/
theorem chainNl_splitLinesPy (x : List Char) : ChainNl (splitLinesPy x) := by
  induction x with
  | nil => trivial
  | cons c t ih =>
    rw [splitLinesPy]
    by_cases hc : c = '\n'
    · simp only [if_pos hc]
      match hsp : splitLinesPy t with
      | [] => trivial
      | p :: ps =>
        rw [hsp] at ih
        exact ⟨⟨[], rfl⟩, ih⟩
    · simp only [if_neg hc]
      match hsp : splitLinesPy t with
      | [] => trivial
      | [p] => trivial
      | p :: q :: ps =>
        rw [hsp] at ih
        obtain ⟨⟨p0, hp0⟩, hrest⟩ := ih
        exact ⟨⟨c :: p0, by rw [hp0]; rfl⟩, hrest⟩

/-- Each line of a split is nonempty and newline-free before its last
character. -/
theorem splitLinesPy_pieces (x : List Char) :
    ∀ p ∈ splitLinesPy x, p ≠ [] ∧ '\n' ∉ p.dropLast := by
  induction x with
  | nil => simp [splitLinesPy]
  | cons c t ih =>
    rw [splitLinesPy]
    by_cases hc : c = '\n'
    · simp only [if_pos hc]
      intro p hp
      rcases List.mem_cons.mp hp with hp | hp
      · subst hp
        exact ⟨by simp, by simp⟩
      · exact ih p hp
    · simp only [if_neg hc]
      match hsp : splitLinesPy t with
      | [] =>
        intro p hp
        simp at hp
        subst hp
        exact ⟨by simp, by simp⟩
      | q :: qs =>
        intro p hp
        rcases List.mem_cons.mp hp with hp | hp
        · subst hp
          have hq := ih q (by rw [hsp]; exact List.mem_cons_self q qs)
          refine ⟨by simp, ?_⟩
          cases q with
          | nil => exact absurd rfl hq.1
          | cons d ds =>
            rw [List.dropLast_cons₂]
            intro hmem
            rcases List.mem_cons.mp hmem with hmem | hmem
            · exact hc hmem.symm
            · exact hq.2 hmem
        · exact ih p (by rw [hsp]; exact List.mem_cons_of_mem q hp)

/-- Re-reading a concatenation of newline-terminated blocks re-splits each
block independently. -/
theorem splitLinesPy_flatten_chain :
    ∀ bs : List (List Char), ChainNl bs →
      splitLinesPy bs.flatten = (bs.map splitLinesPy).flatten := by
  intro bs
  induction bs with
  | nil => intro _; rfl
  | cons a r ih =>
    intro hch
    match r with
    | [] => simp
    | b :: r2 =>
      obtain ⟨⟨a0, ha0⟩, hch2⟩ := hch
      subst ha0
      rw [List.flatten_cons, splitLinesPy_append_endsNl a0 (b :: r2).flatten, ih hch2]
      simp

/-- A non-newline head does not contribute to `nlFollowedBy`. -/
theorem nlFollowedBy_cons_ne (c : Char) (t : List Char) (hc : c ≠ '\n') :
    nlFollowedBy (c :: t) = nlFollowedBy t := by
  rw [nlFollowedBy, if_neg hc, List.nil_append]

/-- Head structure of a split: the first line starts where the text starts,
and every later line starts with a character that follows a newline. -/
theorem splitLinesPy_heads (x : List Char) (hx : x ≠ []) :
    ∃ f rest, splitLinesPy x = f :: rest ∧ f.head? = x.head?
      ∧ ∀ p ∈ rest, ∃ c t, p = c :: t ∧ c ∈ nlFollowedBy x := by
  induction x with
  | nil => exact absurd rfl hx
  | cons c t ih =>
    rw [splitLinesPy]
    by_cases hc : c = '\n'
    · subst hc
      simp only [if_pos rfl]
      refine ⟨['\n'], splitLinesPy t, rfl, rfl, ?_⟩
      intro p hp
      cases t with
      | nil =>
        rw [splitLinesPy] at hp
        simp at hp
      | cons c2 t2 =>
        obtain ⟨f2, rest2, hsp2, hh2, hr2⟩ := ih (by simp)
        rw [hsp2] at hp
        rw [show nlFollowedBy ('\n' :: c2 :: t2) = c2 :: nlFollowedBy (c2 :: t2) from by
          rw [nlFollowedBy, if_pos rfl]
          rfl]
        rcases List.mem_cons.mp hp with hp | hp
        · subst hp
          cases p with
          | nil => simp at hh2
          | cons d ds =>
            simp only [List.head?_cons, Option.some.injEq] at hh2
            exact ⟨d, ds, rfl, by rw [hh2]; exact List.mem_cons_self _ _⟩
        · obtain ⟨d, ds, hpd, hdmem⟩ := hr2 p hp
          exact ⟨d, ds, hpd, List.mem_cons_of_mem _ hdmem⟩
    · simp only [if_neg hc]
      cases t with
      | nil =>
        rw [splitLinesPy]
        exact ⟨[c], [], rfl, rfl, by simp⟩
      | cons c2 t2 =>
        obtain ⟨f2, rest2, hsp2, hh2, hr2⟩ := ih (by simp)
        rw [hsp2]
        refine ⟨c :: f2, rest2, rfl, rfl, ?_⟩
        intro p hp
        obtain ⟨d, ds, hpd, hdmem⟩ := hr2 p hp
        exact ⟨d, ds, hpd, by rwa [nlFollowedBy_cons_ne c _ hc]⟩

/-- Indent-after-newline rewriting is the identity on newline-free text. -/
theorem replaceNlIndent_noNl (s : List Char) (hs : '\n' ∉ s) : replaceNlIndent s = s := by
  induction s with
  | nil => rfl
  | cons c t ih =>
    have hc : c ≠ '\n' := fun h => hs (h ▸ List.mem_cons_self c t)
    rw [replaceNlIndent, if_neg hc, ih (fun h => hs (List.mem_cons_of_mem c h))]

/-- After the indent rewriting (and a final appended newline), every character
that follows a newline is a space. -/
theorem nlFollowedBy_replaceNlIndent (s : List Char) :
    ∀ c ∈ nlFollowedBy (replaceNlIndent s ++ ['\n']), c = ' ' := by
  induction s with
  | nil => simp [replaceNlIndent, nlFollowedBy, headOf]
  | cons c t ih =>
    rw [replaceNlIndent]
    by_cases hc : c = '\n'
    · simp only [if_pos hc]
      intro d hd
      simp only [List.cons_append] at hd
      rw [nlFollowedBy, if_pos rfl] at hd
      rw [show headOf (' ' :: (' ' :: (replaceNlIndent t ++ ['\n']))) = [' '] from rfl] at hd
      rw [List.singleton_append] at hd
      rcases List.mem_cons.mp hd with hd | hd
      · exact hd
      · rw [nlFollowedBy_cons_ne ' ' _ (by decide)] at hd
        rw [nlFollowedBy_cons_ne ' ' _ (by decide)] at hd
        exact ih d hd
    · simp only [if_neg hc]
      intro d hd
      simp only [List.cons_append] at hd
      rw [nlFollowedBy_cons_ne c _ hc] at hd
      exact ih d hd

/-- On a head that is no carriage return, translation keeps the character. -/
theorem univNl_cons_ne (c : Char) (t : List Char) (hc : c ≠ '\r') :
    univNl (c :: t) = c :: univNl t := by
  rw [univNl.eq_def]
  split
  · rename_i heq; cases heq
  · rename_i c2 t2 heq
    obtain ⟨h1, h2⟩ := List.cons.inj heq
    subst h1
    subst h2
    rw [if_neg hc]

/-- A carriage return before anything but a newline becomes a newline. -/
theorem univNl_cr_cons (c2 : Char) (t2 : List Char) (hne : c2 ≠ '\n') :
    univNl ('\r' :: c2 :: t2) = '\n' :: univNl (c2 :: t2) := by
  rw [univNl.eq_def]
  split
  · rename_i heq; cases heq
  · rename_i c3 t3 heq
    obtain ⟨h1, h2⟩ := List.cons.inj heq
    subst h1
    subst h2
    rw [if_pos rfl]
    split
    · rename_i heq2
      obtain ⟨h3, h4⟩ := List.cons.inj heq2
      exact absurd h3 hne
    · rename_i heq2; cases heq2
    · rename_i heq2
      obtain ⟨h3, h4⟩ := List.cons.inj heq2
      subst h3
      subst h4
      rfl

/-- Universal-newline translation leaves carriage-return-free text unchanged. -/
theorem univNl_noCR (x : List Char) (hx : '\r' ∉ x) : univNl x = x := by
  induction x with
  | nil => rfl
  | cons c t ih =>
    have hc : c ≠ '\r' := fun h => hx (h ▸ List.mem_cons_self c t)
    rw [univNl_cons_ne c t hc, ih (fun h => hx (List.mem_cons_of_mem c h))]

/-- Universal-newline translation removes every carriage return. -/
theorem not_cr_mem_univNl (x : List Char) : '\r' ∉ univNl x := by
  induction x using univNl.induct with
  | case1 => simp [univNl]
  | case2 t2 ih =>
    rw [show univNl ('\r' :: '\n' :: t2) = '\n' :: univNl t2 from by simp [univNl]]
    intro hmem
    rcases List.mem_cons.mp hmem with h | h
    · cases h
    · exact ih h
  | case3 => simp [univNl]
  | case4 c2 t2 hne ih =>
    rw [univNl_cr_cons c2 t2 (fun h => hne h)]
    intro hmem
    rcases List.mem_cons.mp hmem with h | h
    · cases h
    · exact ih h
  | case5 c t hc ih =>
    rw [univNl_cons_ne c t hc]
    intro hmem
    rcases List.mem_cons.mp hmem with h | h
    · exact hc h.symm
    · exact ih h

/-- Characters of a split line are characters of the text. -/
theorem mem_of_mem_splitLinesPy (x : List Char) :
    ∀ p ∈ splitLinesPy x, ∀ c ∈ p, c ∈ x := by
  intro p hp c hc
  rw [← join_splitLinesPy x]
  exact List.mem_flatten.mpr ⟨p, hp, hc⟩

/-! ## The reformatter's regular expression

`r"(\[\d\x7b4\x7d-\d\x7b2\x7d-\d\x7b2\x7d \d\x7b2\x7d:\d\x7b2\x7d:\d\x7b2\x7d\.\d\x7b3\x7d\] (?:IN|OUT): )(.+)"`
applied with `re.match` (anchored at the start of the line).  The pattern is
rigid — fixed-width digit runs, literal separators, the two-way tag
alternative, then a greedy nonempty run of non-newline characters — so it is
modelled positionally.  Note the alternative accepts only `IN` and `OUT`;
`ERR` records do not match. -/

/-- The tag part of the pattern: `(?:IN|OUT): `. -/
def matchTag : List Char → Option (List Char × List Char)
  | 'I' :: 'N' :: ':' :: ' ' :: r => some (['I', 'N', ':', ' '], r)
  | 'O' :: 'U' :: 'T' :: ':' :: ' ' :: r => some (['O', 'U', 'T', ':', ' '], r)
  | _ => none

/-- Model of `re.match(pattern, line)`: on success, group 1 (the bracketed
timestamp plus tag) and group 2 (the greedy nonempty run of non-newline
characters). -/
def matchLogLine (l : List Char) : Option (List Char × List Char) :=
  match l with
  | '[' :: y1 :: y2 :: y3 :: y4 :: '-' :: o1 :: o2 :: '-' :: d1 :: d2 :: ' '
      :: h1 :: h2 :: ':' :: n1 :: n2 :: ':' :: s1 :: s2 :: '.' :: f1 :: f2 :: f3
      :: ']' :: ' ' :: r =>
    if isDig y1 && isDig y2 && isDig y3 && isDig y4 && isDig o1 && isDig o2
        && isDig d1 && isDig d2 && isDig h1 && isDig h2 && isDig n1 && isDig n2
        && isDig s1 && isDig s2 && isDig f1 && isDig f2 && isDig f3 then
      (matchTag r).bind (fun p =>
        if (p.2.takeWhile (fun c => c != '\n')).isEmpty then none
        else
          some ('[' :: y1 :: y2 :: y3 :: y4 :: '-' :: o1 :: o2 :: '-' :: d1 :: d2 :: ' '
            :: h1 :: h2 :: ':' :: n1 :: n2 :: ':' :: s1 :: s2 :: '.' :: f1 :: f2 :: f3
            :: ']' :: ' ' :: p.1, p.2.takeWhile (fun c => c != '\n')))
    else none
  | _ => none

/-- Structure of a successful match's group 1: bracketed all-digit timestamp
fields with the literal separators, then one of the two tags. -/
def preShape (p : List Char) : Prop :=
  ∃ y1 y2 y3 y4 o1 o2 d1 d2 h1 h2 n1 n2 s1 s2 f1 f2 f3 tg,
    p = '[' :: y1 :: y2 :: y3 :: y4 :: '-' :: o1 :: o2 :: '-' :: d1 :: d2 :: ' '
      :: h1 :: h2 :: ':' :: n1 :: n2 :: ':' :: s1 :: s2 :: '.' :: f1 :: f2 :: f3
      :: ']' :: ' ' :: tg
    ∧ (isDig y1 && isDig y2 && isDig y3 && isDig y4 && isDig o1 && isDig o2
        && isDig d1 && isDig d2 && isDig h1 && isDig h2 && isDig n1 && isDig n2
        && isDig s1 && isDig s2 && isDig f1 && isDig f2 && isDig f3) = true
    ∧ (tg = ['I', 'N', ':', ' '] ∨ tg = ['O', 'U', 'T', ':', ' '])

/-- Inversion for the tag matcher. -/
theorem matchTag_some {r tg r2 : List Char} (h : matchTag r = some (tg, r2)) :
    r = tg ++ r2 ∧ (tg = ['I', 'N', ':', ' '] ∨ tg = ['O', 'U', 'T', ':', ' ']) := by
  rw [matchTag.eq_def] at h
  split at h
  · obtain ⟨h1, h2⟩ := Prod.mk.injEq .. ▸ Option.some.inj h
    subst h1
    subst h2
    exact ⟨rfl, Or.inl rfl⟩
  · obtain ⟨h1, h2⟩ := Prod.mk.injEq .. ▸ Option.some.inj h
    subst h1
    subst h2
    exact ⟨rfl, Or.inr rfl⟩
  · cases h

/-- Elements picked by the non-newline take are not newlines. -/
theorem not_nl_mem_takeWhile (r2 : List Char) :
    '\n' ∉ r2.takeWhile (fun c => c != '\n') := by
  intro hmem
  have hall := List.mem_takeWhile_imp hmem
  simp at hall

/-- Inversion for the line matcher: group 1 has the rigid shape and group 2 is
a nonempty newline-free run. -/
theorem matchLogLine_some {l pre content : List Char}
    (h : matchLogLine l = some (pre, content)) :
    preShape pre ∧ content ≠ [] ∧ '\n' ∉ content := by
  rw [matchLogLine.eq_def] at h
  split at h
  · split at h
    · rename_i hdig
      simp only [Option.bind] at h
      split at h
      · cases h
      · rename_i p hmt
        obtain ⟨tg, r2⟩ := p
        simp only [] at h
        split at h
        · cases h
        · rename_i hne2
          obtain ⟨hp, hcont⟩ := Prod.mk.injEq .. ▸ Option.some.inj h
          subst hp
          subst hcont
          obtain ⟨hr, htg⟩ := matchTag_some hmt
          refine ⟨⟨_, _, _, _, _, _, _, _, _, _, _, _, _, _, _, _, _, tg,
            rfl, hdig, htg⟩, ?_, not_nl_mem_takeWhile r2⟩
          intro hc
          rw [hc] at hne2
          simp at hne2
    · cases h
  · cases h

/-- The greedy non-newline take recovers exactly a newline-free segment in
front of an empty tail or a tail that starts with a newline. -/
theorem takeWhile_noNl_append (c2 t : List Char) (hc : '\n' ∉ c2)
    (ht : t = [] ∨ ∃ t2, t = '\n' :: t2) :
    (c2 ++ t).takeWhile (fun c => c != '\n') = c2 := by
  induction c2 with
  | nil =>
    rcases ht with ht | ⟨t2, ht⟩
    · subst ht; rfl
    · subst ht; simp [List.takeWhile]
  | cons d ds ih =>
    have hd : d ≠ '\n' := fun hh => hc (hh ▸ List.mem_cons_self d ds)
    rw [List.cons_append, List.takeWhile_cons_of_pos (by simpa using hd)]
    rw [ih (fun hh => hc (List.mem_cons_of_mem d hh))]

/-- Extension: a well-formed group 1 followed by any nonempty newline-free
content (and then nothing or a newline) matches, recovering that content. -/
theorem matchLogLine_extend {pre : List Char} (hp : preShape pre)
    (c2 t : List Char) (hne : c2 ≠ []) (hnl : '\n' ∉ c2)
    (ht : t = [] ∨ ∃ t2, t = '\n' :: t2) :
    matchLogLine (pre ++ c2 ++ t) = some (pre, c2) := by
  obtain ⟨y1, y2, y3, y4, o1, o2, d1, d2, h1, h2, n1, n2, s1, s2, f1, f2, f3, tg,
    hshape, hdig, htg⟩ := hp
  subst hshape
  have htake := takeWhile_noNl_append c2 t hnl ht
  have hemp : c2.isEmpty = false := by
    cases c2 with
    | nil => exact absurd rfl hne
    | cons d ds => rfl
  rcases htg with htg | htg
  · subst htg
    simp only [List.cons_append, List.append_assoc, List.nil_append]
    rw [matchLogLine.eq_def]
    simp only [hdig, if_true]
    rw [show matchTag ('I' :: 'N' :: ':' :: ' ' :: (c2 ++ t))
        = some (['I', 'N', ':', ' '], c2 ++ t) from rfl]
    simp only [Option.bind, htake, hemp, Bool.false_eq_true, if_false]
  · subst htg
    simp only [List.cons_append, List.append_assoc, List.nil_append]
    rw [matchLogLine.eq_def]
    simp only [hdig, if_true]
    rw [show matchTag ('O' :: 'U' :: 'T' :: ':' :: ' ' :: (c2 ++ t))
        = some (['O', 'U', 'T', ':', ' '], c2 ++ t) from rfl]
    simp only [Option.bind, htake, hemp, Bool.false_eq_true, if_false]

/-- Group 1 of a match never contains a newline. -/
theorem preShape_noNl {p : List Char} (hp : preShape p) : '\n' ∉ p := by
  obtain ⟨y1, y2, y3, y4, o1, o2, d1, d2, h1, h2, n1, n2, s1, s2, f1, f2, f3, tg,
    hshape, hdig, htg⟩ := hp
  subst hshape
  intro hmem
  rcases htg with htg | htg
  all_goals
    subst htg
    simp only [List.mem_cons] at hmem
    simp at hmem
    rcases hmem with h | h | h | h | h | h | h | h | h | h | h | h | h | h | h | h | h
    all_goals
      subst h
      simp [isDig] at hdig

/-! ## The `json` module

`json.loads` / `json.dumps(indent=2, ensure_ascii=False)`, modelled with exact
integers for numbers (floats, `NaN` and `Infinity` are outside the model: the
model parser rejects them, so the model leaves such lines unchanged),
insertion-ordered association lists for objects (`dict` collapses duplicate
keys, which the model keeps; both are idempotence-stable), and the exact string
escaping rules of the stdlib encoder.  Surrogate `\uXXXX` escapes are rejected
by the model parser (a Lean `Char` cannot hold a lone surrogate). -/

mutual
/-- A parsed JSON value. -/
inductive JVal where
  | null
  | bool (b : Bool)
  | num (n : Int)
  | str (s : List Char)
  | arr (xs : JArr)
  | obj (ms : JObj)
/-- The elements of a JSON array. -/
inductive JArr where
  | nil
  | cons (hd : JVal) (tl : JArr)
/-- The key-value members of a JSON object, in insertion order. -/
inductive JObj where
  | nil
  | cons (k : List Char) (v : JVal) (tl : JObj)
end

/-- Lower-case hexadecimal digit, as `"\u%04x" % n` uses. -/
def hexDig (k : Nat) : Char :=
  if k < 10 then Char.ofNat (48 + k) else Char.ofNat (87 + k)

/-- One character escaped per the stdlib JSON encoder (`ensure_ascii=False`):
the two-character shortcuts, `\u00XX` for remaining control characters,
everything else literal. -/
def escChar (c : Char) : List Char :=
  if c = '"' then ['\\', '"']
  else if c = '\\' then ['\\', '\\']
  else if c = '\n' then ['\\', 'n']
  else if c = '\r' then ['\\', 'r']
  else if c = '\t' then ['\\', 't']
  else if c.toNat = 8 then ['\\', 'b']
  else if c.toNat = 12 then ['\\', 'f']
  else if c.toNat < 0x20 then
    ['\\', 'u', '0', '0', hexDig (c.toNat / 16), hexDig (c.toNat % 16)]
  else [c]

/-- The escaped body of a JSON string. -/
def escString (s : List Char) : List Char := s.flatMap escChar

/-- A JSON string literal: quotes around the escaped body. -/
def quoteString (s : List Char) : List Char := '"' :: (escString s ++ ['"'])

/-- Decimal representation of an integer, as `repr` renders `int`. -/
def intChars (n : Int) : List Char :=
  if n < 0 then '-' :: natChars n.natAbs else natChars n.toNat

/-- An indentation run. -/
def spaces (k : Nat) : List Char := List.replicate k ' '

mutual
/-- `json.dumps(v, indent=2, ensure_ascii=False)` at indentation level `ind`:
scalars and empty containers render on one line; nonempty containers open the
bracket, put each item on its own line indented two further spaces, and close
the bracket at the current indentation. -/
def dumpsV (ind : Nat) : JVal → List Char
  | .null => lchars ("null")
  | .bool true => lchars ("true")
  | .bool false => lchars ("false")
  | .num n => intChars n
  | .str s => quoteString s
  | .arr .nil => ['[', ']']
  | .arr (.cons v tl) =>
    '[' :: '\n' :: (dumpsArrItems (ind + 2) (.cons v tl) ++ '\n' :: (spaces ind ++ [']']))
  | .obj .nil => [lbrace, rbrace]
  | .obj (.cons k v tl) =>
    lbrace :: '\n' :: (dumpsObjItems (ind + 2) (.cons k v tl) ++ '\n' :: (spaces ind ++ [rbrace]))
/-- Array items, one per line at indentation `ind`, comma-separated (the empty
case does not arise: `dumpsV` handles empty arrays itself). -/
def dumpsArrItems (ind : Nat) : JArr → List Char
  | .nil => []
  | .cons v .nil => spaces ind ++ dumpsV ind v
  | .cons v (.cons v2 tl2) =>
    (spaces ind ++ dumpsV ind v) ++ ',' :: '\n' :: dumpsArrItems ind (.cons v2 tl2)
/-- Object members, one per line at indentation `ind`, `": "` after each key,
comma-separated (the empty case does not arise). -/
def dumpsObjItems (ind : Nat) : JObj → List Char
  | .nil => []
  | .cons k v .nil => spaces ind ++ (quoteString k ++ ':' :: ' ' :: dumpsV ind v)
  | .cons k v (.cons k2 v2 tl2) =>
    (spaces ind ++ (quoteString k ++ ':' :: ' ' :: dumpsV ind v))
      ++ ',' :: '\n' :: dumpsObjItems ind (.cons k2 v2 tl2)
end

/-- `json.dumps(v, indent=2, ensure_ascii=False)` of a whole document. -/
def jsonDumps (j : JVal) : List Char := dumpsV 0 j

/-- JSON whitespace (`json.decoder.WHITESPACE`). -/
def jWs (c : Char) : Bool := c = ' ' || c = '\t' || c = '\n' || c = '\r'

/-- Skip JSON whitespace. -/
def skipJWs (s : List Char) : List Char := s.dropWhile jWs

/-- Value of a hexadecimal digit. -/
def hexVal (c : Char) : Option Nat :=
  if 48 ≤ c.toNat && c.toNat ≤ 57 then some (c.toNat - 48)
  else if 97 ≤ c.toNat && c.toNat ≤ 102 then some (c.toNat - 87)
  else if 65 ≤ c.toNat && c.toNat ≤ 70 then some (c.toNat - 55)
  else none

/-- Value of a four-digit hexadecimal escape. -/
def hex4 (a b c d : Char) : Option Nat :=
  match hexVal a, hexVal b, hexVal c, hexVal d with
  | some va, some vb, some vc, some vd => some (((va * 16 + vb) * 16 + vc) * 16 + vd)
  | _, _, _, _ => none

/-- The two-character string escapes the decoder accepts. -/
def unescChar (e : Char) : Option Char :=
  if e = '"' then some '"'
  else if e = '\\' then some '\\'
  else if e = '/' then some '/'
  else if e = 'b' then some (Char.ofNat 8)
  else if e = 'f' then some (Char.ofNat 12)
  else if e = 'n' then some '\n'
  else if e = 'r' then some '\r'
  else if e = 't' then some '\t'
  else none

/-- Parse a JSON string body after the opening quote (`py_scanstring` with
`strict=True`: raw control characters are rejected); surrogate escapes are
outside the model.  Returns the string and the input after the closing
quote. -/
def parseStr : List Char → Option (List Char × List Char)
  | [] => none
  | c :: t =>
    if c = '"' then some ([], t)
    else if c = '\\' then
      match t with
      | [] => none
      | e :: t2 =>
        if e = 'u' then
          match t2 with
          | h1 :: h2 :: h3 :: h4 :: t3 =>
            match hex4 h1 h2 h3 h4 with
            | some n =>
              if n < 0xD800 || 0xE000 ≤ n then
                (parseStr t3).map (fun p => (Char.ofNat n :: p.1, p.2))
              else none
            | none => none
          | _ => none
        else
          match unescChar e with
          | some c2 => (parseStr t2).map (fun p => (c2 :: p.1, p.2))
          | none => none
    else if c.toNat < 0x20 then none
    else (parseStr t).map (fun p => (c :: p.1, p.2))

/-- A leading zero followed by more digits (rejected by the number grammar). -/
def leadZero : List Char → Bool
  | '0' :: _ :: _ => true
  | _ => false

/-- A number continued by a fraction or exponent, i.e. a float literal —
outside the integer model. -/
def floatNext : List Char → Bool
  | c :: _ => c = '.' || c = 'e' || c = 'E'
  | [] => false

/-- Numeric value of a digit run. -/
def digitsVal (ds : List Char) : Nat :=
  ds.foldl (fun a d => a * 10 + (d.toNat - '0'.toNat)) 0

/-- Parse the digit run of an integer literal (sign already consumed). -/
def parseNumCore (neg : Bool) (s1 : List Char) : Option (JVal × List Char) :=
  if (s1.takeWhile isDig).isEmpty then none
  else if leadZero (s1.takeWhile isDig) then none
  else if floatNext (s1.dropWhile isDig) then none
  else
    some (.num (if neg then -(digitsVal (s1.takeWhile isDig) : Int)
                else (digitsVal (s1.takeWhile isDig) : Int)),
      s1.dropWhile isDig)

/-- Parse an integer literal (the `NUMBER_RE` match restricted to integers). -/
def parseNum : List Char → Option (JVal × List Char)
  | [] => none
  | c :: t => if c = '-' then parseNumCore true t else parseNumCore false (c :: t)

/-- `scan_once` on values that are not containers: strings, the three literal
names, and numbers. -/
def parseAtom (c : Char) (t : List Char) : Option (JVal × List Char) :=
  if c = '"' then (parseStr t).map (fun p => (JVal.str p.1, p.2))
  else if c = 'n' then
    match t with
    | 'u' :: '\x6c' :: 'l' :: r => some (.null, r)
    | _ => none
  else if c = 't' then
    match t with
    | 'r' :: '\x75' :: 'e' :: r => some (.bool true, r)
    | _ => none
  else if c = 'f' then
    match t with
    | 'a' :: '\x6c' :: 's' :: 'e' :: r => some (.bool false, r)
    | _ => none
  else if c = '-' || isDig c then parseNum (c :: t)
  else none

mutual
/-- `scan_once`: dispatch on the first character of a value.  `fuel` bounds the
container nesting (strictly decreasing across the mutual recursion; every level
consumes at least one character, so the initial `length + 1` never runs out
before malformed input is rejected anyway). -/
def parseVal : Nat → List Char → Option (JVal × List Char)
  | 0, _ => none
  | fuel + 1, s =>
    match s with
    | [] => none
    | c :: t =>
      if c = lbrace then
        match skipJWs t with
        | '\x7d' :: r => some (.obj JObj.nil, r)
        | s2 => (parseObjItems fuel s2).map (fun p => (JVal.obj p.1, p.2))
      else if c = '[' then
        match skipJWs t with
        | ']' :: r => some (.arr JArr.nil, r)
        | s2 => (parseArrItems fuel s2).map (fun p => (JVal.arr p.1, p.2))
      else parseAtom c t
/-- One-or-more comma-separated array elements, then the closing bracket. -/
def parseArrItems : Nat → List Char → Option (JArr × List Char)
  | 0, _ => none
  | fuel + 1, s =>
    match parseVal fuel s with
    | none => none
    | some (v, r) =>
      match skipJWs r with
      | ',' :: r2 => (parseArrItems fuel (skipJWs r2)).map (fun p => (JArr.cons v p.1, p.2))
      | ']' :: r2 => some (JArr.cons v JArr.nil, r2)
      | _ => none
/-- One-or-more comma-separated `"key": value` members, then the closing
brace. -/
def parseObjItems : Nat → List Char → Option (JObj × List Char)
  | 0, _ => none
  | fuel + 1, s =>
    match s with
    | '"' :: t =>
      match parseStr t with
      | none => none
      | some (k, r1) =>
        match skipJWs r1 with
        | ':' :: r2 =>
          match parseVal fuel (skipJWs r2) with
          | none => none
          | some (v, r3) =>
            match skipJWs r3 with
            | ',' :: r4 => (parseObjItems fuel (skipJWs r4)).map (fun p => (JObj.cons k v p.1, p.2))
            | '\x7d' :: r4 => some (JObj.cons k v JObj.nil, r4)
            | _ => none
        | _ => none
    | _ => none
end

/-- A non-bracket head makes `scan_once` dispatch to the atom scanner. -/
theorem parseVal_not_bracket (fuel : Nat) (c : Char) (t : List Char)
    (h1 : c ≠ lbrace) (h2 : c ≠ '[') :
    parseVal (fuel + 1) (c :: t) = parseAtom c t := by
  conv_lhs => rw [parseVal]
  rw [if_neg h1, if_neg h2]

/-- `json.loads`: skip surrounding whitespace, scan one value, reject trailing
data. -/
def jsonLoads (s : List Char) : Option JVal :=
  match parseVal (s.length + 1) (skipJWs s) with
  | some (j, r) => if (skipJWs r).isEmpty then some j else none
  | none => none

/-- The per-line transformation of `format_json_logs`: on a regex match whose
content parses as JSON, rebuild the line as
`f"⟨prefix⟩⟨indented_json⟩\n"` where `indented_json` is the 2-space
pretty-printed rendering with two extra spaces after every newline; all other
lines pass through unchanged. -/
def formatLine (line : List Char) : List Char :=
  match matchLogLine line with
  | none => line
  | some (pre, content) =>
    match jsonLoads content with
    | none => line
    | some j => pre ++ (replaceNlIndent (jsonDumps j) ++ ['\n'])

/-- `format_json_logs` as a file-to-file function: read in text mode
(universal newlines), `readlines`, map the per-line transformation, and write
the concatenation (text-mode write is the identity on POSIX). -/
def format_json_logs (file : List Char) : List Char :=
  ((splitLinesPy (univNl file)).map formatLine).flatten

/-- C5 counterexample: an `ERR`-tagged transcript line whose content parses as
JSON is NOT transformed — the regex alternative accepts only `IN` and `OUT` —
contradicting the claim that ERR-tagged lines are pretty-printed. -/
theorem err_json_line_not_reformatted :
    jsonLoads (lchars ("\x7b\"a\":1\x7d"))
        = some (JVal.obj (JObj.cons ['a'] (JVal.num 1) JObj.nil))
    ∧ matchLogLine (lchars ("[2024-01-01 00:00:00.000] ERR: \x7b\"a\":1\x7d\n")) = none
    ∧ format_json_logs (lchars ("[2024-01-01 00:00:00.000] ERR: \x7b\"a\":1\x7d\n"))
        = lchars ("[2024-01-01 00:00:00.000] ERR: \x7b\"a\":1\x7d\n")
    ∧ lchars ("[2024-01-01 00:00:00.000] ERR: \x7b\"a\":1\x7d\n")
        ≠ lchars ("[2024-01-01 00:00:00.000] ERR: ")
            ++ (replaceNlIndent (jsonDumps (JVal.obj (JObj.cons ['a'] (JVal.num 1) JObj.nil)))
              ++ ['\n']) :=
  ⟨rfl, rfl, rfl, by decide⟩

/-- C5 amended: for every line matching the reformatter's pattern — whose tag
alternative accepts only `IN` and `OUT`, not `ERR` — with content parsing as
JSON, the line is rebuilt as the prefix followed by the 2-space pretty-printed
rendering with continuation lines indented two further spaces, and a final
newline. -/
theorem matched_json_line_reformatted (line pre content : List Char) (j : JVal)
    (hm : matchLogLine line = some (pre, content)) (hj : jsonLoads content = some j) :
    formatLine line = pre ++ (replaceNlIndent (jsonDumps j) ++ ['\n']) ∧ preShape pre := by
  constructor
  · rw [formatLine, hm]
    simp only []
    rw [hj]
  · exact (matchLogLine_some hm).1

/-- Witness for C5 (amended) at a concrete `OUT` line with JSON content. -/
theorem matched_json_line_reformatted_witness :
    formatLine (lchars ("[2024-01-01 00:00:00.000] OUT: \x7b\"a\":1\x7d\n"))
      = lchars ("[2024-01-01 00:00:00.000] OUT: ")
        ++ (replaceNlIndent (jsonDumps (JVal.obj (JObj.cons ['a'] (JVal.num 1) JObj.nil)))
          ++ ['\n']) :=
  (matched_json_line_reformatted (lchars ("[2024-01-01 00:00:00.000] OUT: \x7b\"a\":1\x7d\n"))
    (lchars ("[2024-01-01 00:00:00.000] OUT: ")) (lchars ("\x7b\"a\":1\x7d"))
    (JVal.obj (JObj.cons ['a'] (JVal.num 1) JObj.nil)) rfl rfl).1

/-- C6 counterexample: the scenario line does not produce the claimed output —
the `replace("\n", "\n  ")` step adds two MORE spaces to every continuation
line of the already-indented rendering, so the value line carries four spaces
and the closing brace two, not two and zero. -/
theorem reformat_scenario_not_as_claimed :
    format_json_logs (lchars ("[2024-01-01 00:00:00.000] OUT: \x7b\"a\":1\x7d"))
        ≠ lchars ("[2024-01-01 00:00:00.000] OUT: \x7b\n  \"a\": 1\n\x7d")
    ∧ format_json_logs (lchars ("[2024-01-01 00:00:00.000] OUT: \x7b\"a\":1\x7d"))
        ≠ lchars ("[2024-01-01 00:00:00.000] OUT: \x7b\n  \"a\": 1\n\x7d\n") :=
  ⟨by decide, by decide⟩

/-- C6 amended: the scenario line yields
`[2024-01-01 00:00:00.000] OUT: \x7b\n    "a": 1\n  \x7d` followed by a final
newline (each continuation line of the 2-space rendering gains two further
spaces). -/
theorem reformat_scenario_actual :
    format_json_logs (lchars ("[2024-01-01 00:00:00.000] OUT: \x7b\"a\":1\x7d"))
      = lchars ("[2024-01-01 00:00:00.000] OUT: \x7b\n    \"a\": 1\n  \x7d\n") := rfl

/-! ## Round trip for single-line renderings

The idempotence argument only ever re-parses renderings that fit on one line —
scalars and empty containers — since multi-line renderings are split across
transcript lines whose fragments no longer parse. -/

/-- A digit run is never empty. -/
theorem natCharsAux_ne_nil (fuel n : Nat) : natCharsAux fuel n ≠ [] := by
  cases fuel with
  | zero => simp [natCharsAux]
  | succ f =>
    rw [natCharsAux]
    by_cases h : n < 10
    · simp [h]
    · simp [h]

/-- Taking with an everywhere-true test is the identity. -/
theorem takeWhile_all {p : Char → Bool} :
    ∀ {l : List Char}, (∀ c ∈ l, p c = true) → l.takeWhile p = l
  | [], _ => rfl
  | c :: t, h => by
    rw [List.takeWhile_cons_of_pos (h c (List.mem_cons_self c t))]
    rw [takeWhile_all (fun x hx => h x (List.mem_cons_of_mem c hx))]

/-- Dropping with an everywhere-true test leaves nothing. -/
theorem dropWhile_all {p : Char → Bool} :
    ∀ {l : List Char}, (∀ c ∈ l, p c = true) → l.dropWhile p = []
  | [], _ => rfl
  | c :: t, h => by
    rw [List.dropWhile_cons_of_pos (h c (List.mem_cons_self c t))]
    exact dropWhile_all (fun x hx => h x (List.mem_cons_of_mem c hx))

/-- The digit character of `k` carries the value `k` back. -/
theorem digitChar_val (m : Nat) : (digitChar m).toNat - '0'.toNat = m % 10 := by
  have h : ∀ k, k < 10 → (Char.ofNat (48 + k)).toNat - '0'.toNat = k := by decide
  exact h (m % 10) (Nat.mod_lt _ (by omega))

/-- A single character is never a multi-digit leading zero. -/
theorem leadZero_single (c : Char) : leadZero [c] = false := by
  rw [leadZero.eq_def]
  split
  · rename_i heq
    simp at heq
  · rfl

/-- Folding the digit characters recovers the number. -/
theorem digitsVal_natCharsAux (fuel : Nat) :
    ∀ n a, n ≤ fuel →
      (natCharsAux fuel n).foldl (fun b d => b * 10 + (d.toNat - '0'.toNat)) a
        = a * 10 ^ (natCharsAux fuel n).length + n := by
  induction fuel with
  | zero =>
    intro n a hn
    interval_cases n
    rw [natCharsAux]
    simp only [List.foldl_cons, List.foldl_nil, List.length_cons, List.length_nil, pow_one]
    rw [digitChar_val]
    omega
  | succ f ih =>
    intro n a hn
    rw [natCharsAux]
    by_cases h : n < 10
    · simp only [if_pos h, List.foldl_cons, List.foldl_nil, List.length_cons,
        List.length_nil, pow_one]
      rw [digitChar_val]
      omega
    · simp only [if_neg h, List.foldl_append, List.foldl_cons, List.foldl_nil,
        List.length_append, List.length_cons, List.length_nil]
    
      rw [ih (n / 10) a (by omega)]
      rw [digitChar_val]
      rw [pow_succ]
      have hmod := Nat.div_add_mod n 10
      set L := (natCharsAux f (n / 10)).length
      set K := 10 ^ L
      have : (a * K + n / 10) * 10 + n % 10 = a * (K * 10) + (n / 10 * 10 + n % 10) := by ring
      omega

/-- `digitsVal` inverts `natChars`. -/
theorem digitsVal_natChars (n : Nat) : digitsVal (natChars n) = n := by
  have h := digitsVal_natCharsAux n n 0 le_rfl
  rw [digitsVal, natChars]
  rw [h]
  simp

/-- A multi-digit run never starts with `'0'`. -/
theorem natCharsAux_no_leadZero (fuel : Nat) :
    ∀ n, n ≤ fuel → leadZero (natCharsAux fuel n) = false := by
  induction fuel with
  | zero =>
    intro n hn
    interval_cases n
    rw [natCharsAux]
    exact leadZero_single _
  | succ f ih =>
    intro n hn
    rw [natCharsAux]
    by_cases h : n < 10
    · rw [if_pos h]
      exact leadZero_single _
    · rw [if_neg h]
      have h1 : 1 ≤ n / 10 := by omega
      have hhead : ∀ fuel2 m, 1 ≤ m → m ≤ fuel2 →
          ∃ c cs, natCharsAux fuel2 m = c :: cs ∧ c ≠ '0' := by
        intro fuel2
        induction fuel2 with
        | zero => intro m hm1 hm2; omega
        | succ f2 ih2 =>
          intro m hm1 hm2
          rw [natCharsAux]
          by_cases hm : m < 10
          · refine ⟨digitChar m, [], by rw [if_pos hm], ?_⟩
            have : ∀ k, 1 ≤ k → k < 10 → digitChar k ≠ '0' := by decide
            exact this m hm1 hm
          · rw [if_neg hm]
            obtain ⟨c, cs, hc, hcne⟩ := ih2 (m / 10) (by omega) (by omega)
            exact ⟨c, cs ++ [digitChar (m % 10)], by rw [hc]; rfl, hcne⟩
      obtain ⟨c, cs, hc, hcne⟩ := hhead f (n / 10) h1 (by omega)
      rw [hc]
      cases cs with
      | nil =>
        rw [leadZero.eq_def]
        simp only [List.cons_append, List.nil_append]
        split
        · rename_i heq
          obtain ⟨hh, _⟩ := List.cons.inj heq
          exact absurd hh hcne
        · rfl
      | cons c2 cs2 =>
        rw [leadZero.eq_def]
        simp only [List.cons_append]
        split
        · rename_i heq
          obtain ⟨hh, _⟩ := List.cons.inj heq
          exact absurd hh hcne
        · rfl

/-- `leadZero` is false on every full digit run of a natural number. -/
theorem natChars_no_leadZero (n : Nat) : leadZero (natChars n) = false :=
  natCharsAux_no_leadZero n n le_rfl

/-- Parsing the decimal rendering of an integer recovers it exactly. -/
theorem parseNum_intChars (n : Int) : parseNum (intChars n) = some (.num n, []) := by
  by_cases hn : n < 0
  · rw [intChars, if_pos hn, parseNum]
    rw [if_pos rfl]
    rw [parseNumCore]
    rw [takeWhile_all (natChars_digits n.natAbs), dropWhile_all (natChars_digits n.natAbs)]
    rw [show (natChars n.natAbs).isEmpty = false from by
      cases h : natChars n.natAbs with
      | nil => exact absurd h (natCharsAux_ne_nil _ _)
      | cons c cs => rfl]
    rw [natChars_no_leadZero]
    simp only [Bool.false_eq_true, if_false, floatNext]
    rw [digitsVal_natChars]
    have : -(n.natAbs : Int) = n := by omega
    rw [this]
    simp
  · rw [intChars, if_neg hn, parseNum.eq_def]
    have hne := natCharsAux_ne_nil n.toNat n.toNat
    match hh : natChars n.toNat with
    | [] => exact absurd hh hne
    | c :: t =>
      have hcdig : isDig c = true := by
        have := natChars_digits n.toNat c (by rw [hh]; exact List.mem_cons_self c t)
        exact this
      have hcne : c ≠ '-' := by
        intro hcc
        rw [hcc] at hcdig
        exact absurd hcdig (by decide)
      simp only []
      rw [if_neg hcne]
      rw [parseNumCore]
      have hdigs : ∀ x ∈ c :: t, isDig x = true := by
        rw [← hh]
        exact natChars_digits n.toNat
      rw [takeWhile_all hdigs, dropWhile_all hdigs]
      rw [show (c :: t).isEmpty = false from rfl]
      rw [← hh, natChars_no_leadZero]
      simp only [Bool.false_eq_true, if_false, floatNext]
      rw [hh, ← hh, digitsVal_natChars]
      have : (n.toNat : Int) = n := by omega
      rw [this]

/-- Hexadecimal digits round-trip for values below 16. -/
theorem hexVal_hexDig (d : Nat) (h : d < 16) : hexVal (hexDig d) = some d := by
  have hall : ∀ k, k < 16 → hexVal (hexDig k) = some k := by decide
  exact hall d h

/-- A raw character accepted by the string scanner is consumed literally. -/
theorem parseStr_lit (c : Char) (X : List Char) (h1 : c ≠ '"') (h2 : c ≠ '\\')
    (h3 : ¬(c.toNat < 0x20)) :
    parseStr (c :: X) = (parseStr X).map (fun p => (c :: p.1, p.2)) := by
  conv_lhs => rw [parseStr.eq_def]
  simp only [if_neg h1, if_neg h2, if_neg h3]

/-- A `\u00XX` escape is decoded back to its code point. -/
theorem parseStr_u (d1 d2 : Char) (n : Nat) (X : List Char)
    (hhex : hex4 '0' '0' d1 d2 = some n) (hn : n < 0xD800) :
    parseStr ('\\' :: 'u' :: '0' :: '0' :: d1 :: d2 :: X)
      = (parseStr X).map (fun p => (Char.ofNat n :: p.1, p.2)) := by
  conv_lhs => rw [parseStr.eq_def]
  simp only [reduceIte]
  rw [hhex]
  simp only [if_neg (by decide : ¬('\\' : Char) = '"'), hn]
  simp

/-- Scanning one escaped character undoes the encoder's escaping. -/
theorem parseStr_escChar (c : Char) (X : List Char) :
    parseStr (escChar c ++ X) = (parseStr X).map (fun p => (c :: p.1, p.2)) := by
  rw [escChar]
  by_cases h1 : c = '"'
  · subst h1
    rw [if_pos rfl, List.cons_append, List.cons_append, List.nil_append]
    conv_lhs => rw [parseStr.eq_def]
    simp [unescChar]
  rw [if_neg h1]
  by_cases h2 : c = '\\'
  · subst h2
    rw [if_pos rfl, List.cons_append, List.cons_append, List.nil_append]
    conv_lhs => rw [parseStr.eq_def]
    simp [unescChar]
  rw [if_neg h2]
  by_cases h3 : c = '\n'
  · subst h3
    rw [if_pos rfl, List.cons_append, List.cons_append, List.nil_append]
    conv_lhs => rw [parseStr.eq_def]
    simp [unescChar]
  rw [if_neg h3]
  by_cases h4 : c = '\r'
  · subst h4
    rw [if_pos rfl, List.cons_append, List.cons_append, List.nil_append]
    conv_lhs => rw [parseStr.eq_def]
    simp [unescChar]
  rw [if_neg h4]
  by_cases h5 : c = '\t'
  · subst h5
    rw [if_pos rfl, List.cons_append, List.cons_append, List.nil_append]
    conv_lhs => rw [parseStr.eq_def]
    simp [unescChar]
  rw [if_neg h5]
  by_cases h6 : c.toNat = 8
  · have hc : c = Char.ofNat 8 := by
      rw [← h6, Char.ofNat_toNat]
    subst hc
    rw [if_pos h6, List.cons_append, List.cons_append, List.nil_append]
    conv_lhs => rw [parseStr.eq_def]
    simp [unescChar]
  rw [if_neg h6]
  by_cases h7 : c.toNat = 12
  · have hc : c = Char.ofNat 12 := by
      rw [← h7, Char.ofNat_toNat]
    subst hc
    rw [if_pos h7, List.cons_append, List.cons_append, List.nil_append]
    conv_lhs => rw [parseStr.eq_def]
    simp [unescChar]
  rw [if_neg h7]
  by_cases h8 : c.toNat < 0x20
  · rw [if_pos h8]
    have hdiv : c.toNat / 16 < 16 := by omega
    have hmod : c.toNat % 16 < 16 := Nat.mod_lt _ (by omega)
    have hhex : hex4 '0' '0' (hexDig (c.toNat / 16)) (hexDig (c.toNat % 16)) = some c.toNat := by
      rw [hex4]
      rw [show hexVal '0' = some 0 from rfl, hexVal_hexDig _ hdiv, hexVal_hexDig _ hmod]
      simp only [Option.some.injEq]
      omega
    rw [List.cons_append, List.cons_append, List.cons_append, List.cons_append,
      List.cons_append, List.cons_append, List.nil_append]
    rw [parseStr_u _ _ _ _ hhex (by omega)]
    rw [Char.ofNat_toNat]
  · rw [if_neg h8]
    rw [List.cons_append, List.nil_append]
    exact parseStr_lit c X h1 h2 h8

/-- Scanning an escaped string body stops at the closing quote and recovers
the original string. -/
theorem parseStr_escString (s : List Char) :
    ∀ rest, parseStr (escString s ++ '"' :: rest) = some (s, rest) := by
  induction s with
  | nil =>
    intro rest
    rw [show escString [] ++ '"' :: rest = '"' :: rest from rfl]
    conv_lhs => rw [parseStr.eq_def]
    simp
  | cons c t ih =>
    intro rest
    rw [show escString (c :: t) = escChar c ++ escString t from rfl, List.append_assoc,
      parseStr_escChar, ih rest]
    rfl

/-- A digit is not JSON whitespace. -/
theorem jWs_of_isDig (c : Char) (h : isDig c = true) : jWs c = false := by
  by_contra hcon
  simp only [Bool.not_eq_false] at hcon
  rw [jWs] at hcon
  simp only [Bool.or_eq_true, decide_eq_true_eq] at hcon
  rcases hcon with ((hc | hc) | hc) | hc
  all_goals
    subst hc
    exact absurd h (by decide)

/-- `scan_once` dispatches a digit-headed input to the number scanner. -/
theorem parseVal_digit (fuel : Nat) (c : Char) (t : List Char) (h : isDig c = true) :
    parseVal (fuel + 1) (c :: t) = parseNum (c :: t) := by
  have h1 : c ≠ '"' := fun hh => by rw [hh] at h; exact absurd h (by decide)
  have h2 : c ≠ lbrace := fun hh => by rw [hh] at h; exact absurd h (by decide)
  have h3 : c ≠ '[' := fun hh => by rw [hh] at h; exact absurd h (by decide)
  have h4 : c ≠ 'n' := fun hh => by rw [hh] at h; exact absurd h (by decide)
  have h5 : c ≠ 't' := fun hh => by rw [hh] at h; exact absurd h (by decide)
  have h6 : c ≠ 'f' := fun hh => by rw [hh] at h; exact absurd h (by decide)
  rw [parseVal_not_bracket fuel c t h2 h3]
  conv_lhs => rw [parseAtom.eq_def]
  rw [if_neg h1, if_neg h4, if_neg h5, if_neg h6]
  simp [h]

/-- `json.loads` of a rendered integer recovers it. -/
theorem jsonLoads_intChars (n : Int) : jsonLoads (intChars n) = some (.num n) := by
  by_cases hn : n < 0
  · have hsh : intChars n = '-' :: natChars n.natAbs := by rw [intChars, if_pos hn]
    rw [jsonLoads, hsh]
    rw [show skipJWs ('-' :: natChars n.natAbs) = '-' :: natChars n.natAbs from by
      rw [skipJWs, List.dropWhile_cons_of_neg (by decide)]]
    rw [show parseVal (('-' :: natChars n.natAbs).length + 1) ('-' :: natChars n.natAbs)
        = parseNum ('-' :: natChars n.natAbs) from rfl]
    rw [← hsh, parseNum_intChars n]
    rfl
  · have hdigs := natChars_digits n.toNat
    have hsh : intChars n = natChars n.toNat := by rw [intChars, if_neg hn]
    rw [jsonLoads, hsh]
    have hne := natCharsAux_ne_nil n.toNat n.toNat
    match hh : natChars n.toNat with
    | [] => exact absurd hh hne
    | c :: t =>
      have hcdig : isDig c = true := hdigs c (by rw [hh]; exact List.mem_cons_self c t)
      rw [show skipJWs (c :: t) = c :: t from by
        rw [skipJWs, List.dropWhile_cons_of_neg (by simp [jWs_of_isDig c hcdig])]]
      rw [show (c :: t).length + 1 = t.length + 1 + 1 from by simp]
      rw [parseVal_digit _ c t hcdig]
      rw [← hh, ← hsh, parseNum_intChars n]
      rfl

/-- `json.loads` of a rendered string literal recovers it. -/
theorem jsonLoads_quoteString (s : List Char) : jsonLoads (quoteString s) = some (.str s) := by
  rw [jsonLoads, quoteString]
  rw [show skipJWs ('"' :: (escString s ++ ['"'])) = '"' :: (escString s ++ ['"']) from by
    rw [skipJWs, List.dropWhile_cons_of_neg (by decide)]]
  rw [show parseVal (('"' :: (escString s ++ ['"'])).length + 1) ('"' :: (escString s ++ ['"']))
      = (parseStr (escString s ++ ['"'])).map (fun p => (JVal.str p.1, p.2)) from rfl]
  rw [show (escString s ++ ['"']) = escString s ++ '"' :: [] from rfl]
  rw [parseStr_escString s []]
  rfl

/-- The escaped form of any character contains neither a raw newline nor a raw
carriage return (both are escaped). -/
theorem escChar_no_nl_cr (c x : Char) (hx : x ∈ escChar c) : x ≠ '\n' ∧ x ≠ '\r' := by
  rw [escChar] at hx
  split_ifs at hx with h1 h2 h3 h4 h5 h6 h7 h8
  · simp only [List.mem_cons, List.not_mem_nil, or_false] at hx
    rcases hx with hx | hx
    all_goals subst hx
    all_goals exact ⟨by decide, by decide⟩
  · simp only [List.mem_cons, List.not_mem_nil, or_false] at hx
    rcases hx with hx | hx
    all_goals subst hx
    all_goals exact ⟨by decide, by decide⟩
  · simp only [List.mem_cons, List.not_mem_nil, or_false] at hx
    rcases hx with hx | hx
    all_goals subst hx
    all_goals exact ⟨by decide, by decide⟩
  · simp only [List.mem_cons, List.not_mem_nil, or_false] at hx
    rcases hx with hx | hx
    all_goals subst hx
    all_goals exact ⟨by decide, by decide⟩
  · simp only [List.mem_cons, List.not_mem_nil, or_false] at hx
    rcases hx with hx | hx
    all_goals subst hx
    all_goals exact ⟨by decide, by decide⟩
  · simp only [List.mem_cons, List.not_mem_nil, or_false] at hx
    rcases hx with hx | hx
    all_goals subst hx
    all_goals exact ⟨by decide, by decide⟩
  · simp only [List.mem_cons, List.not_mem_nil, or_false] at hx
    rcases hx with hx | hx
    all_goals subst hx
    all_goals exact ⟨by decide, by decide⟩
  · have hdig : ∀ k, k < 16 → hexDig k ≠ '\n' ∧ hexDig k ≠ '\r' := by decide
    have hdiv : c.toNat / 16 < 16 := by omega
    have hmod : c.toNat % 16 < 16 := Nat.mod_lt _ (by omega)
    simp only [List.mem_cons, List.not_mem_nil, or_false] at hx
    rcases hx with hx | hx | hx | hx | hx | hx
    · subst hx; exact ⟨by decide, by decide⟩
    · subst hx; exact ⟨by decide, by decide⟩
    · subst hx; exact ⟨by decide, by decide⟩
    · subst hx; exact ⟨by decide, by decide⟩
    · subst hx; exact hdig _ hdiv
    · subst hx; exact hdig _ hmod
  · simp at hx
    subst hx
    constructor
    · intro hc
      rw [hc] at h8
      exact h8 (by decide)
    · intro hc
      rw [hc] at h8
      exact h8 (by decide)

/-- A quoted string literal contains neither newline nor carriage return. -/
theorem quoteString_no_nl_cr (s : List Char) (x : Char) (hx : x ∈ quoteString s) :
    x ≠ '\n' ∧ x ≠ '\r' := by
  rw [quoteString] at hx
  rcases List.mem_cons.mp hx with hx | hx
  · subst hx; exact ⟨by decide, by decide⟩
  rcases List.mem_append.mp hx with hx | hx
  · obtain ⟨c, _, hcx⟩ := List.mem_flatMap.mp hx
    exact escChar_no_nl_cr c x hcx
  · simp at hx
    subst hx
    exact ⟨by decide, by decide⟩

/-- A rendered integer contains neither newline nor carriage return. -/
theorem intChars_no_nl_cr (n : Int) (x : Char) (hx : x ∈ intChars n) :
    x ≠ '\n' ∧ x ≠ '\r' := by
  have hdig : ∀ c, isDig c = true → c ≠ '\n' ∧ c ≠ '\r' := by
    intro c hc
    constructor
    · intro hcc; rw [hcc] at hc; exact absurd hc (by decide)
    · intro hcc; rw [hcc] at hc; exact absurd hc (by decide)
  rw [intChars] at hx
  split_ifs at hx
  · rcases List.mem_cons.mp hx with hx | hx
    · subst hx; exact ⟨by decide, by decide⟩
    · exact hdig x (natChars_digits _ x hx)
  · exact hdig x (natChars_digits _ x hx)

mutual
/-- A rendering contains no raw carriage return (they are escaped inside
strings and appear nowhere else). -/
theorem dumpsV_noCR : ∀ (ind : Nat) (j : JVal), '\r' ∉ dumpsV ind j
  | ind, .null => by rw [dumpsV]; decide
  | ind, .bool true => by rw [dumpsV]; decide
  | ind, .bool false => by rw [dumpsV]; decide
  | ind, .num n => fun hx => ((intChars_no_nl_cr n _ hx).2 rfl)
  | ind, .str s => fun hx => ((quoteString_no_nl_cr s _ hx).2 rfl)
  | ind, .arr .nil => by rw [dumpsV]; decide
  | ind, .arr (.cons v tl) => by
    rw [dumpsV]
    intro hx
    rcases List.mem_cons.mp hx with hx | hx
    · cases hx
    rcases List.mem_cons.mp hx with hx | hx
    · cases hx
    rcases List.mem_append.mp hx with hx | hx
    · exact dumpsArrItems_noCR (ind + 2) (.cons v tl) hx
    rcases List.mem_cons.mp hx with hx | hx
    · cases hx
    rcases List.mem_append.mp hx with hx | hx
    · exact absurd (List.eq_of_mem_replicate hx) (by decide)
    · simp only [List.mem_cons, List.not_mem_nil, or_false] at hx
      exact absurd hx (by decide)
  | ind, .obj .nil => by rw [dumpsV]; decide
  | ind, .obj (.cons k v tl) => by
    rw [dumpsV]
    intro hx
    rcases List.mem_cons.mp hx with hx | hx
    · cases hx
    rcases List.mem_cons.mp hx with hx | hx
    · cases hx
    rcases List.mem_append.mp hx with hx | hx
    · exact dumpsObjItems_noCR (ind + 2) (.cons k v tl) hx
    rcases List.mem_cons.mp hx with hx | hx
    · cases hx
    rcases List.mem_append.mp hx with hx | hx
    · exact absurd (List.eq_of_mem_replicate hx) (by decide)
    · simp only [List.mem_cons, List.not_mem_nil, or_false] at hx
      exact absurd hx (by decide)
/-- Array items contain no raw carriage return. -/
theorem dumpsArrItems_noCR : ∀ (ind : Nat) (xs : JArr), '\r' ∉ dumpsArrItems ind xs
  | ind, .nil => by rw [dumpsArrItems]; decide
  | ind, .cons v .nil => by
    rw [dumpsArrItems]
    intro hx
    rcases List.mem_append.mp hx with hx | hx
    · exact absurd (List.eq_of_mem_replicate hx) (by decide)
    · exact dumpsV_noCR ind v hx
  | ind, .cons v (.cons v2 tl2) => by
    rw [dumpsArrItems]
    intro hx
    rcases List.mem_append.mp hx with hx | hx
    · rcases List.mem_append.mp hx with hx | hx
      · exact absurd (List.eq_of_mem_replicate hx) (by decide)
      · exact dumpsV_noCR ind v hx
    rcases List.mem_cons.mp hx with hx | hx
    · cases hx
    rcases List.mem_cons.mp hx with hx | hx
    · cases hx
    · exact dumpsArrItems_noCR ind (.cons v2 tl2) hx
/-- Object members contain no raw carriage return. -/
theorem dumpsObjItems_noCR : ∀ (ind : Nat) (ms : JObj), '\r' ∉ dumpsObjItems ind ms
  | ind, .nil => by rw [dumpsObjItems]; decide
  | ind, .cons k v .nil => by
    rw [dumpsObjItems]
    intro hx
    rcases List.mem_append.mp hx with hx | hx
    · exact absurd (List.eq_of_mem_replicate hx) (by decide)
    rcases List.mem_append.mp hx with hx | hx
    · exact (quoteString_no_nl_cr k _ hx).2 rfl
    rcases List.mem_cons.mp hx with hx | hx
    · cases hx
    rcases List.mem_cons.mp hx with hx | hx
    · cases hx
    · exact dumpsV_noCR ind v hx
  | ind, .cons k v (.cons k2 v2 tl2) => by
    rw [dumpsObjItems]
    intro hx
    rcases List.mem_append.mp hx with hx | hx
    · rcases List.mem_append.mp hx with hx | hx
      · exact absurd (List.eq_of_mem_replicate hx) (by decide)
      rcases List.mem_append.mp hx with hx | hx
      · exact (quoteString_no_nl_cr k _ hx).2 rfl
      rcases List.mem_cons.mp hx with hx | hx
      · cases hx
      rcases List.mem_cons.mp hx with hx | hx
      · cases hx
      · exact dumpsV_noCR ind v hx
    rcases List.mem_cons.mp hx with hx | hx
    · cases hx
    rcases List.mem_cons.mp hx with hx | hx
    · cases hx
    · exact dumpsObjItems_noCR ind (.cons k2 v2 tl2) hx
end

/-- A rendering is never empty. -/
theorem jsonDumps_ne_nil : ∀ j : JVal, jsonDumps j ≠ []
  | .null => by rw [jsonDumps, dumpsV]; decide
  | .bool true => by rw [jsonDumps, dumpsV]; decide
  | .bool false => by rw [jsonDumps, dumpsV]; decide
  | .num n => by
    rw [jsonDumps, dumpsV, intChars]
    split_ifs
    · simp
    · exact natCharsAux_ne_nil n.toNat n.toNat
  | .str s => by rw [jsonDumps, dumpsV, quoteString]; simp
  | .arr .nil => by rw [jsonDumps, dumpsV]; simp
  | .arr (.cons v tl) => by rw [jsonDumps, dumpsV]; simp
  | .obj .nil => by rw [jsonDumps, dumpsV]; simp
  | .obj (.cons k v tl) => by rw [jsonDumps, dumpsV]; simp

/-- A rendering is either a single newline-free line that parses back to the
same value, or a multi-line block opening with a bracket followed by a
newline. -/
theorem jsonDumps_single_or_multi (j : JVal) :
    ('\n' ∉ jsonDumps j ∧ jsonLoads (jsonDumps j) = some j)
    ∨ (∃ rest, jsonDumps j = lbrace :: '\n' :: rest ∨ jsonDumps j = '[' :: '\n' :: rest) := by
  cases j with
  | null => exact Or.inl ⟨by decide, rfl⟩
  | bool b =>
    cases b with
    | true => exact Or.inl ⟨by decide, rfl⟩
    | false => exact Or.inl ⟨by decide, rfl⟩
  | num n => exact Or.inl ⟨fun hx => (intChars_no_nl_cr n _ hx).1 rfl, jsonLoads_intChars n⟩
  | str s => exact Or.inl ⟨fun hx => (quoteString_no_nl_cr s _ hx).1 rfl, jsonLoads_quoteString s⟩
  | arr xs =>
    cases xs with
    | nil => exact Or.inl ⟨by decide, rfl⟩
    | cons v tl =>
      refine Or.inr ⟨dumpsArrItems (0 + 2) (.cons v tl) ++ '\n' :: (spaces 0 ++ [']']), Or.inr ?_⟩
      rw [jsonDumps, dumpsV]
  | obj ms =>
    cases ms with
    | nil => exact Or.inl ⟨by decide, rfl⟩
    | cons k v tl =>
      refine Or.inr ⟨dumpsObjItems (0 + 2) (.cons k v tl) ++ '\n' :: (spaces 0 ++ [rbrace]),
        Or.inl ?_⟩
      rw [jsonDumps, dumpsV]

/-- A line whose first character is not the opening bracket never matches the
pattern. -/
theorem matchLogLine_none_of_head (c : Char) (t : List Char) (hc : c ≠ '[') :
    matchLogLine (c :: t) = none := by
  rw [matchLogLine.eq_def]
  split
  · rename_i heq
    exact absurd (List.cons.inj heq).1 hc
  · rfl

/-- A nonempty line with no interior newline splits as itself. -/
theorem splitLinesPy_single (p : List Char) (hne : p ≠ []) (hdl : '\n' ∉ p.dropLast) :
    splitLinesPy p = [p] := by
  by_cases hnl : '\n' ∈ p
  · have hsplit : p.dropLast ++ [p.getLast hne] = p := List.dropLast_append_getLast hne
    have hlast : p.getLast hne = '\n' := by
      have hmem : '\n' ∈ p.dropLast ++ [p.getLast hne] := by rw [hsplit]; exact hnl
      rcases List.mem_append.mp hmem with h | h
      · exact absurd h hdl
      · exact (List.mem_singleton.mp h).symm
    conv_lhs => rw [← hsplit, hlast]
    conv_rhs => rw [← hsplit, hlast]
    rw [splitLinesPy_nlterm p.dropLast [] hdl]
    rfl
  · exact splitLinesPy_noNl p hnl hne

/-- Group 1 of a match never contains a carriage return. -/
theorem preShape_noCR {p : List Char} (hp : preShape p) : '\r' ∉ p := by
  obtain ⟨y1, y2, y3, y4, o1, o2, d1, d2, h1, h2, n1, n2, s1, s2, f1, f2, f3, tg,
    hshape, hdig, htg⟩ := hp
  subst hshape
  intro hmem
  rcases htg with htg | htg
  all_goals
    subst htg
    simp only [List.mem_cons] at hmem
    simp at hmem
    rcases hmem with h | h | h | h | h | h | h | h | h | h | h | h | h | h | h | h | h
    all_goals
      subst h
      simp [isDig] at hdig

/-- The indent rewriting introduces no carriage return. -/
theorem not_cr_replaceNlIndent (s : List Char) (hs : '\r' ∉ s) : '\r' ∉ replaceNlIndent s := by
  induction s with
  | nil => intro h; cases h
  | cons c t ih =>
    have ht : '\r' ∉ t := fun h => hs (List.mem_cons_of_mem c h)
    rw [replaceNlIndent]
    by_cases hc : c = '\n'
    · rw [if_pos hc]
      intro h
      rcases List.mem_cons.mp h with h | h
      · exact absurd h (by decide)
      rcases List.mem_cons.mp h with h | h
      · exact absurd h (by decide)
      rcases List.mem_cons.mp h with h | h
      · exact absurd h (by decide)
      · exact ih ht h
    · rw [if_neg hc]
      intro h
      rcases List.mem_cons.mp h with h | h
      · subst h
        exact hs (List.mem_cons_self _ _)
      · exact ih ht h

/-- A line that does not match passes through unchanged. -/
theorem formatLine_eq_none {p : List Char} (hm : matchLogLine p = none) :
    formatLine p = p := by
  simp only [formatLine, hm]

/-- A matched line whose content is not JSON passes through unchanged. -/
theorem formatLine_eq_nonjson {p pre content : List Char}
    (hm : matchLogLine p = some (pre, content)) (hj : jsonLoads content = none) :
    formatLine p = p := by
  simp only [formatLine, hm, hj]

/-- A matched line with JSON content is rebuilt from group 1 and the indented
rendering. -/
theorem formatLine_eq_json {p pre content : List Char} {j : JVal}
    (hm : matchLogLine p = some (pre, content)) (hj : jsonLoads content = some j) :
    formatLine p = pre ++ (replaceNlIndent (jsonDumps j) ++ ['\n']) := by
  simp only [formatLine, hm, hj]

/-- The per-line transformation introduces no carriage return. -/
theorem formatLine_noCR (p : List Char) (hp : '\r' ∉ p) : '\r' ∉ formatLine p := by
  cases hm : matchLogLine p with
  | none => rw [formatLine_eq_none hm]; exact hp
  | some pr =>
    obtain ⟨pre, content⟩ := pr
    cases hj : jsonLoads content with
    | none => rw [formatLine_eq_nonjson hm hj]; exact hp
    | some j =>
      rw [formatLine_eq_json hm hj]
      intro hmem
      rcases List.mem_append.mp hmem with h | h
      · exact preShape_noCR (matchLogLine_some hm).1 h
      rcases List.mem_append.mp h with h | h
      · exact not_cr_replaceNlIndent _ (dumpsV_noCR 0 j) h
      · rcases List.mem_cons.mp h with h | h
        · exact absurd h (by decide)
        · cases h

/-- The reformatter's output contains no carriage return. -/
theorem format_noCR (file : List Char) : '\r' ∉ format_json_logs file := by
  rw [format_json_logs]
  intro hmem
  obtain ⟨q, hq, hcq⟩ := List.mem_flatten.mp hmem
  obtain ⟨p, hp, hfp⟩ := List.mem_map.mp hq
  subst hfp
  exact formatLine_noCR p
    (fun hcp => not_cr_mem_univNl file (mem_of_mem_splitLinesPy (univNl file) p hp _ hcp)) hcq

/-- The per-line transformation preserves a trailing newline. -/
theorem formatLine_endsNl (p a0 : List Char) (ha : p = a0 ++ ['\n']) :
    ∃ b0, formatLine p = b0 ++ ['\n'] := by
  cases hm : matchLogLine p with
  | none => exact ⟨a0, by rw [formatLine_eq_none hm, ha]⟩
  | some pr =>
    obtain ⟨pre, content⟩ := pr
    cases hj : jsonLoads content with
    | none => exact ⟨a0, by rw [formatLine_eq_nonjson hm hj, ha]⟩
    | some j =>
      refine ⟨pre ++ replaceNlIndent (jsonDumps j), ?_⟩
      rw [formatLine_eq_json hm hj, List.append_assoc]

/-- Mapping the per-line transformation preserves the newline-chain shape. -/
theorem chainNl_map_formatLine : ∀ bs : List (List Char), ChainNl bs →
    ChainNl (bs.map formatLine)
  | [], _ => trivial
  | [_], _ => trivial
  | a :: b :: r, h => by
    obtain ⟨⟨a0, ha0⟩, h2⟩ := h
    exact ⟨formatLine_endsNl a a0 ha0, chainNl_map_formatLine (b :: r) h2⟩

/-- Mapping a function that fixes every element of a list fixes the list. -/
theorem map_fixed {α : Type} (f : α → α) : ∀ l : List α, (∀ a ∈ l, f a = a) → l.map f = l
  | [], _ => rfl
  | a :: t, h => by
    rw [List.map_cons, h a (List.mem_cons_self a t),
      map_fixed f t (fun b hb => h b (List.mem_cons_of_mem a hb))]

/-- Re-reading a transformed multi-line block line by line leaves every line
unchanged: the first line ends after the opening bracket, whose lone-bracket
content is not JSON, and every continuation line starts with a space, which
cannot match the pattern. -/
theorem reformat_multi_block (pre : List Char) (hpre : preShape pre)
    (br : Char) (rest : List Char) (hbrN : br ≠ '\n')
    (hbrL : jsonLoads [br] = none) :
    ((splitLinesPy ((pre ++ [br]) ++ '\n' :: (' ' :: ' ' :: (replaceNlIndent rest
        ++ ['\n'])))).map formatLine).flatten
      = (pre ++ [br]) ++ '\n' :: (' ' :: ' ' :: (replaceNlIndent rest ++ ['\n'])) := by
  have haNl : '\n' ∉ pre ++ [br] := by
    intro h
    rcases List.mem_append.mp h with h | h
    · exact preShape_noNl hpre h
    · rcases List.mem_cons.mp h with h | h
      · exact hbrN h.symm
      · cases h
  rw [splitLinesPy_nlterm _ _ haNl]
  simp only [List.map_cons, List.flatten_cons]
  have hm2 : matchLogLine ((pre ++ [br]) ++ ['\n']) = some (pre, [br]) :=
    matchLogLine_extend hpre [br] ['\n'] (by simp)
      (by
        intro h
        rcases List.mem_cons.mp h with h | h
        · exact hbrN h.symm
        · cases h)
      (Or.inr ⟨[], rfl⟩)
  rw [formatLine_eq_nonjson hm2 hbrL]
  have hall : ∀ s ∈ splitLinesPy (' ' :: ' ' :: (replaceNlIndent rest ++ ['\n'])),
      formatLine s = s := by
    obtain ⟨f, tl, hsp2, hh, hr⟩ :=
      splitLinesPy_heads (' ' :: ' ' :: (replaceNlIndent rest ++ ['\n'])) (by simp)
    rw [hsp2]
    intro s hs
    rcases List.mem_cons.mp hs with hs | hs
    · subst hs
      cases s with
      | nil => simp at hh
      | cons c f2 =>
        have hc : c = ' ' := Option.some.inj hh
        rw [hc]
        exact formatLine_eq_none (matchLogLine_none_of_head ' ' f2 (by decide))
    · obtain ⟨c, t2, hst, hc⟩ := hr s hs
      rw [nlFollowedBy_cons_ne ' ' _ (by decide), nlFollowedBy_cons_ne ' ' _ (by decide)] at hc
      have hc2 : c = ' ' := nlFollowedBy_replaceNlIndent rest c hc
      subst hst
      rw [hc2]
      exact formatLine_eq_none (matchLogLine_none_of_head ' ' t2 (by decide))
  rw [map_fixed formatLine _ hall, join_splitLinesPy]
  simp

/-- Fixed point of the re-read-and-reformat step on one line of a previous
output. -/
theorem formatLine_block (p : List Char) (hne : p ≠ []) (hdl : '\n' ∉ p.dropLast) :
    ((splitLinesPy (formatLine p)).map formatLine).flatten = formatLine p := by
  cases hm : matchLogLine p with
  | none =>
    rw [formatLine_eq_none hm, splitLinesPy_single p hne hdl]
    simp only [List.map_cons, List.map_nil, List.flatten_cons, List.flatten_nil,
      List.append_nil]
    exact formatLine_eq_none hm
  | some pr =>
    obtain ⟨pre, content⟩ := pr
    cases hj : jsonLoads content with
    | none =>
      rw [formatLine_eq_nonjson hm hj, splitLinesPy_single p hne hdl]
      simp only [List.map_cons, List.map_nil, List.flatten_cons, List.flatten_nil,
        List.append_nil]
      exact formatLine_eq_nonjson hm hj
    | some j =>
      have hpre := (matchLogLine_some hm).1
      have hpreNl : '\n' ∉ pre := preShape_noNl hpre
      rw [formatLine_eq_json hm hj]
      rcases jsonDumps_single_or_multi j with ⟨hnl, hload⟩ | ⟨rest, hbr | hbr⟩
      · rw [replaceNlIndent_noNl _ hnl]
        have hsp : splitLinesPy (pre ++ (jsonDumps j ++ ['\n']))
            = [(pre ++ jsonDumps j) ++ ['\n']] := by
          rw [show pre ++ (jsonDumps j ++ ['\n'])
              = (pre ++ jsonDumps j) ++ '\n' :: ([] : List Char) from by simp]
          rw [splitLinesPy_nlterm _ _ (fun hmem => by
            rcases List.mem_append.mp hmem with h | h
            · exact hpreNl h
            · exact hnl h)]
          rfl
        rw [hsp]
        simp only [List.map_cons, List.map_nil, List.flatten_cons, List.flatten_nil,
          List.append_nil]
        have hm2 : matchLogLine ((pre ++ jsonDumps j) ++ ['\n'])
            = some (pre, jsonDumps j) :=
          matchLogLine_extend hpre (jsonDumps j) ['\n'] (jsonDumps_ne_nil j) hnl
            (Or.inr ⟨[], rfl⟩)
        rw [formatLine_eq_json hm2 hload, replaceNlIndent_noNl _ hnl]
      · rw [hbr]
        rw [show replaceNlIndent (lbrace :: '\n' :: rest)
            = lbrace :: '\n' :: ' ' :: ' ' :: replaceNlIndent rest from by
          rw [replaceNlIndent, if_neg (by decide), replaceNlIndent, if_pos rfl]]
        rw [show pre ++ ((lbrace :: '\n' :: ' ' :: ' ' :: replaceNlIndent rest) ++ ['\n'])
            = (pre ++ [lbrace]) ++ '\n' :: (' ' :: ' ' :: (replaceNlIndent rest ++ ['\n']))
          from by simp]
        exact reformat_multi_block pre hpre lbrace rest (by decide) rfl
      · rw [hbr]
        rw [show replaceNlIndent ('[' :: '\n' :: rest)
            = '[' :: '\n' :: ' ' :: ' ' :: replaceNlIndent rest from by
          rw [replaceNlIndent, if_neg (by decide), replaceNlIndent, if_pos rfl]]
        rw [show pre ++ (('[' :: '\n' :: ' ' :: ' ' :: replaceNlIndent rest) ++ ['\n'])
            = (pre ++ ['[']) ++ '\n' :: (' ' :: ' ' :: (replaceNlIndent rest ++ ['\n']))
          from by simp]
        exact reformat_multi_block pre hpre '[' rest (by decide) rfl

/-- Re-reading and reformatting a concatenation of per-line fixed points is the
identity. -/
theorem flatten_reformat (ps : List (List Char))
    (h : ∀ p ∈ ps, ((splitLinesPy (formatLine p)).map formatLine).flatten = formatLine p) :
    ((((ps.map formatLine).map splitLinesPy).flatten).map formatLine).flatten
      = (ps.map formatLine).flatten := by
  induction ps with
  | nil => rfl
  | cons p r ih =>
    simp only [List.map_cons, List.flatten_cons, List.map_append, List.flatten_append]
    rw [h p (List.mem_cons_self p r), ih (fun q hq => h q (List.mem_cons_of_mem p hq))]

/-- Applying the reformatter to the concatenated transformation of well-formed
lines returns it unchanged. -/
theorem format_of_flatten (ps : List (List Char))
    (hp : ∀ p ∈ ps, p ≠ [] ∧ '\n' ∉ p.dropLast)
    (hcr : ∀ p ∈ ps, '\r' ∉ p)
    (hch : ChainNl ps) :
    format_json_logs ((ps.map formatLine).flatten) = (ps.map formatLine).flatten := by
  have hcrOut : '\r' ∉ (ps.map formatLine).flatten := by
    intro h
    obtain ⟨q, hq, hcq⟩ := List.mem_flatten.mp h
    obtain ⟨p, hp2, hfp⟩ := List.mem_map.mp hq
    subst hfp
    exact formatLine_noCR p (hcr p hp2) hcq
  rw [format_json_logs, univNl_noCR _ hcrOut,
    splitLinesPy_flatten_chain (ps.map formatLine) (chainNl_map_formatLine ps hch)]
  exact flatten_reformat ps (fun p hpm => formatLine_block p (hp p hpm).1 (hp p hpm).2)

/-- C7: the reformatter is idempotent — applying `format_json_logs` to its own
output yields that output unchanged: already pretty-printed JSON blocks are
not transformed again and all other lines pass through untouched. -/
theorem format_json_logs_idempotent (file : List Char) :
    format_json_logs (format_json_logs file) = format_json_logs file := by
  have h : format_json_logs file
      = (((splitLinesPy (univNl file)).map formatLine)).flatten := rfl
  rw [h]
  exact format_of_flatten (splitLinesPy (univNl file))
    (splitLinesPy_pieces (univNl file))
    (fun p hp hmem => not_cr_mem_univNl file
      (mem_of_mem_splitLinesPy (univNl file) p hp _ hmem))
    (chainNl_splitLinesPy (univNl file))

end Mcptest
